import Mathlib

/-!
# go-queue-runner: a shallow embedding of the queue, context, lock manager and runner

The Go package `queuerunner` is embedded as pure Lean functions with explicit
state passing.

* A Go `error` is a value of `GoError` (identified by its message).
* A `map[string]any` is an association list (`GoMap`); `nil` maps are `none`.
* A slice of actions is a `List Action`.
* User code (an action body, a custom error handler) is a function from the
  state it can reach (`Env`: the context's exported fields and the lock
  registry) to an `Effect`: the state it leaves behind, the calls it made on
  the context's queue hooks (`ctx.Push`, `ctx.Abort`) in program order, and
  how it finished (returned nil, returned an error, panicked, never returned).
* One queue runs on one thread of control: a scope that is held when
  `RunWithLock` or `Wait` is entered stays held, so the call never returns.
* Logger implementations are sinks that return normally; every call the
  package itself makes on a logger is recorded in `World.logs` (calls made by
  user code are not). The `End` callback is a procedure that returns.
* A panic carries a non-nil value (`PanicValue`); the nil `Action` is the
  action `Action.nil`, which panics when it is called.
* A runner is followed through its events (`RunnerEvent`): calls of `Add` and
  `AddEndListener`, and the end callbacks of its queues. Each event is taken
  as a whole (the critical sections of `Add` and `onQueueEnd`); end listeners
  are procedures that return, and their calls are recorded.
* `World` also carries the observation points the properties talk about: the
  actions executed by the run loop, the errors handed to the configured error
  handler, and the number of times the end callback was called.
-/

namespace QueueRunner

/-! ## Values -/

/-- A Go `error` value, identified by its message. -/
structure GoError where
  message : String
deriving DecidableEq, Repr

/-- The identity of a value implementing the `Logger` interface: the
package's `stdLogger` or a caller-supplied implementation. -/
inductive Logger where
  | std
  | ref (id : Nat)
deriving DecidableEq, Repr

/-- A dynamically typed value stored in a context (`any`). -/
inductive Value where
  | null
  | str (s : String)
  | int (i : Int)
  | bool (b : Bool)
  | logger (l : Logger)
deriving DecidableEq, Repr

/-- A non-nil value recovered from a panic: an `error`, or any other value. -/
inductive PanicValue where
  | error (e : GoError)
  | str (s : String)
  | int (i : Int)
  | bool (b : Bool)
deriving DecidableEq, Repr

/-- The default formatting `fmt.Sprintf("%v", v)` of a recovered value. -/
def PanicValue.format : PanicValue → String
  | .error e => e.message
  | .str s => s
  | .int i => toString i
  | .bool b => if b then "true" else "false"

/-- The conversion every `recover()` site of the package applies:
`recovered.(error)` when the value is an error, `fmt.Errorf("%v", recovered)`
otherwise. -/
def recoveredError : PanicValue → GoError
  | .error e => e
  | v => ⟨v.format⟩

/-! ## Maps -/

/-- A Go `map[string]any`, as its entries. -/
abbrev GoMap := List (String × Value)

/-- The map read `m[key]` with the comma-ok result. -/
def GoMap.get (m : GoMap) (key : String) : Option Value :=
  m.lookup key

/-- The map write `m[key] = value`. -/
def GoMap.set : GoMap → String → Value → GoMap
  | [], key, value => [(key, value)]
  | (k, v) :: rest, key, value =>
    if k = key then (k, value) :: rest else (k, v) :: GoMap.set rest key value

/-! ## Context state and user code -/

/-- The exported fields of `Context`. The hooks `pushFn`, `nameFn`, `abortFn`
and `locking` are wired once by `NewQueue` to the owning queue. -/
structure Context where
  Data : Option GoMap
  Logger : Option Logger
deriving DecidableEq, Repr

/-- The registry of `LockManager`: the keys of `scopes` (the channel stored
under a key only serves to wake waiters). -/
structure LockManager where
  scopes : List String
deriving DecidableEq, Repr

/-- The state user code running inside a queue can read and write: the
queue's context and the lock manager the queue was built with. -/
structure Env where
  ctx : Context
  locks : LockManager
deriving DecidableEq, Repr

/-- How a Go function body finished: it returned its result, it panicked
with a value, or it never returned (it blocks or loops forever). -/
inductive Finish (ρ : Type) where
  | returned (result : ρ)
  | panic (v : PanicValue)
  | hang

/-- A call made on the context's queue hooks: `ctx.Push(actions)` or
`ctx.Abort()`. -/
inductive QueueCall (α : Type) where
  | push (actions : List α)
  | abort

/-- What running a piece of user code did: the state it left, the hook calls
it made (in program order), and how it finished. -/
structure Effect (α ρ : Type) where
  env : Env
  calls : List (QueueCall α)
  finish : Finish ρ

/-- The type `Action` (`func(*Context) error`), with the display name that
`actionName` resolves for it: the symbol name the runtime reports for the
function, written here without the import path of the package, which
depends on the build. A returned `none` is the nil error. -/
inductive Action where
  | mk (name : String) (body : Env → Effect Action (Option GoError))

/-- The display name `actionName` resolves for the action. -/
def Action.name : Action → String
  | .mk name _ => name

/-- Calling the action on a context. -/
def Action.body : Action → Env → Effect Action (Option GoError)
  | .mk _ body => body

/-- The nil `Action`: `actionName` answers "unknown" and the call panics
with the runtime's nil-dereference error. -/
def Action.nil : Action :=
  .mk "unknown" fun env =>
    ⟨env, [], .panic (.error ⟨"runtime error: invalid memory address or nil pointer dereference"⟩)⟩

/-- The type `ErrorHandler` (`func(err error, ctx *Context)`). -/
abbrev ErrorHandler := GoError → Env → Effect Action Unit

/-! ## Lock manager (locking.go) -/

/-- The predicate `unicode.IsSpace`, which `strings.TrimSpace` trims by. -/
def isSpace (c : Char) : Bool :=
  let n := c.toNat
  (9 ≤ n && n ≤ 13) || n = 32 || n = 0x85 || n = 0xA0 || n = 0x1680 ||
  (0x2000 ≤ n && n ≤ 0x200A) || n = 0x2028 || n = 0x2029 || n = 0x202F ||
  n = 0x205F || n = 0x3000

/-- The function `strings.TrimSpace`: leading and trailing white space removed. -/
def TrimSpace (s : String) : String :=
  String.mk ((s.data.dropWhile isSpace).reverse.dropWhile isSpace).reverse

/-- The package variable `ErrInvalidScope`. -/
def ErrInvalidScope : GoError := ⟨"lock scope must be a non-empty string"⟩

/-- The function `ValidateScope`: `some ErrInvalidScope` when the scope is
empty after trimming, `none` (nil) otherwise. -/
def ValidateScope (scope : String) : Option GoError :=
  if TrimSpace scope = "" then some ErrInvalidScope else none

/-- The constructor `NewLockManager`. -/
def NewLockManager : LockManager := ⟨[]⟩

/-- The method `LockManager.IsLocked`: is the scope a key of the registry. -/
def LockManager.IsLocked (manager : LockManager) (scope : String) : Bool :=
  decide (scope ∈ manager.scopes)

/-- The method `LockManager.Lock`: the registry afterwards and the returned
error. -/
def LockManager.Lock (manager : LockManager) (scope : String) : LockManager × Option GoError :=
  match ValidateScope scope with
  | some err => (manager, some err)
  | none =>
    if manager.IsLocked scope then (manager, some ⟨"scope is already locked"⟩)
    else (⟨scope :: manager.scopes⟩, none)

/-- The method `LockManager.Unlock`: the key is deleted when present. -/
def LockManager.Unlock (manager : LockManager) (scope : String) : LockManager :=
  ⟨manager.scopes.filter (fun s => s ≠ scope)⟩

/-- The method `LockManager.Wait`: returns at once on an unheld scope and
blocks on a held one, which nobody else releases on this thread of control. -/
def LockManager.Wait (manager : LockManager) (scope : String) : Finish (Option GoError) :=
  match ValidateScope scope with
  | some err => .returned (some err)
  | none => if manager.IsLocked scope then .hang else .returned none

/-- The method `LockManager.RunWithLock` on the manager of `env`: claim the
scope, run `fn`, delete the registration, close its channel and return what
`fn` returned. A panic of `fn` leaves the function before the deletion; a
held scope blocks. When `fn` has released the scope itself, the channel is
closed already and `close(ch)` panics with the runtime's error. (The registry
keeps the scope names, not the channels: a body that releases the scope and
claims it again counts as one that left the registration in place.) -/
def LockManager.RunWithLock {α : Type} (scope : String)
    (fn : Env → Effect α (Option GoError)) (env : Env) : Effect α (Option GoError) :=
  match ValidateScope scope with
  | some err => ⟨env, [], .returned (some err)⟩
  | none =>
    if env.locks.IsLocked scope then ⟨env, [], .hang⟩
    else
      let r := fn { env with locks := ⟨scope :: env.locks.scopes⟩ }
      match r.finish with
      | .returned err =>
        ⟨{ r.env with locks := r.env.locks.Unlock scope }, r.calls,
          if r.env.locks.IsLocked scope then .returned err
          else .panic (.error ⟨"close of closed channel"⟩)⟩
      | .panic v => ⟨r.env, r.calls, .panic v⟩
      | .hang => ⟨r.env, r.calls, .hang⟩

/-- The methods of the interface `LockingContext`. -/
inductive LockCall (α : Type) where
  | IsLocked
  | Lock
  | Unlock
  | Wait
  | RunWithLock (fn : Env → Effect α (Option GoError))

/-- What a `LockingContext` method hands back: a boolean (`IsLocked`),
nothing (`Unlock`), an error result (`Lock`, `Wait`, `RunWithLock`), or no
return at all. -/
inductive LockReturn where
  | bool (b : Bool)
  | nothing
  | error (err : Option GoError)
  | panic (v : PanicValue)
  | never
deriving DecidableEq, Repr

/-- The result of a function with an error result, as a `LockReturn`. -/
def LockReturn.ofFinish : Finish (Option GoError) → LockReturn
  | .returned err => .error err
  | .panic v => .panic v
  | .hang => .never

/-- Calling one method of the lock manager of `env` with a scope. -/
def LockManager.invoke {α : Type} (env : Env) (call : LockCall α) (scope : String) :
    LockReturn × Env :=
  match call with
  | .IsLocked => (.bool (env.locks.IsLocked scope), env)
  | .Lock => (.error (env.locks.Lock scope).2, { env with locks := (env.locks.Lock scope).1 })
  | .Unlock => (.nothing, { env with locks := env.locks.Unlock scope })
  | .Wait => (.ofFinish (env.locks.Wait scope), env)
  | .RunWithLock fn =>
    (.ofFinish (LockManager.RunWithLock scope fn env).finish,
      (LockManager.RunWithLock scope fn env).env)

/-! ## Logger (logger.go) and the observable world -/

/-- A call on a method of the `Logger` interface. -/
inductive LogCall where
  | Info (message : String)
  | SetContext (context : String)
  | Error (err : GoError)
deriving DecidableEq, Repr

/-- A logger call made by the package: which logger, which method. -/
structure LogEvent where
  logger : Logger
  call : LogCall
deriving DecidableEq, Repr

/-- The function `defaultLogger`. -/
def defaultLogger : Logger := .std

/-- What an observer of a queue sees: the logger calls the package made, the
actions the run loop executed (each with the error `executeSafe` returned
for it), the errors handed to the configured error handler, and how often
the end callback was called. -/
structure World where
  logs : List LogEvent
  executed : List (Action × Option GoError)
  handled : List GoError
  ended : Nat

/-- The world before anything happened. -/
def World.init : World := ⟨[], [], [], 0⟩

/-- Record a logger call. -/
def World.log (w : World) (logger : Logger) (call : LogCall) : World :=
  { w with logs := w.logs ++ [⟨logger, call⟩] }

/-- The errors passed to the `Error` method of one logger, in call order. -/
def World.errorsOf (w : World) (logger : Logger) : List GoError :=
  w.logs.filterMap fun ev =>
    match ev.call with
    | .Error err => if ev.logger = logger then some err else none
    | _ => none

/-- Every call of an `Error` method so far: the logger and the error. -/
def World.errorCalls (w : World) : List (Logger × GoError) :=
  w.logs.filterMap fun ev =>
    match ev.call with
    | .Error err => some (ev.logger, err)
    | _ => none

/-! ## Context (context.go) -/

/-- The `Data` and `Logger` a `newContext` starts with. -/
def newContext : Context := ⟨some [], none⟩

/-- The loop body shared by `Initialize` and `Extend`: store the entry and
hydrate `Logger` from the key "logger" when the value is a `Logger`. -/
def Context.store (ctx : Context) (entry : String × Value) : Context :=
  let data := ((ctx.Data.getD []).set entry.1 entry.2)
  match entry.1 == "logger", entry.2 with
  | true, .logger l => ⟨some data, some l⟩
  | _, _ => ⟨some data, ctx.Logger⟩

/-- The method `Context.Initialize`. -/
def Context.Initialize (ctx : Context) (initial : GoMap) : Context :=
  initial.foldl Context.store ⟨some [], ctx.Logger⟩

/-- The method `Context.Extend`. -/
def Context.Extend (ctx : Context) (values : GoMap) : Context :=
  values.foldl Context.store ⟨some (ctx.Data.getD []), ctx.Logger⟩

/-- The method `Context.Get`, with the comma-ok result as an option. -/
def Context.Get (ctx : Context) (key : String) : Option Value :=
  match ctx.Data with
  | none => none
  | some data => data.get key

/-- The method `Context.Set`. -/
def Context.Set (ctx : Context) (key : String) (value : Value) : Context :=
  { ctx with Data := some ((ctx.Data.getD []).set key value) }

/-- The method `Context.LoggerFromData`. -/
def Context.LoggerFromData (ctx : Context) : Option QueueRunner.Logger :=
  match ctx.Data with
  | none => none
  | some data =>
    match data.get "logger" with
    | some (.logger l) => some l
    | _ => none

/-- The method `Context.Push` on the state `σ` its hook closes over: a no-op
when the hook is absent. -/
def Context.Push {σ : Type} (pushFn : Option (List Action → σ → σ)) (actions : List Action)
    (s : σ) : σ :=
  match pushFn with
  | none => s
  | some f => f actions s

/-- The method `Context.Abort` on the state `σ` its hook closes over. -/
def Context.Abort {σ : Type} (abortFn : Option (σ → σ)) (s : σ) : σ :=
  match abortFn with
  | none => s
  | some f => f s

/-- The method `Context.Name`. -/
def Context.Name (nameFn : Option String) : String :=
  match nameFn with
  | none => ""
  | some name => name

/-! ## Queue (queue.go) -/

/-- The value of the field `onError`: the package's `defaultErrorHandler`,
or a handler supplied by the caller. -/
inductive OnError where
  | defaultErrorHandler
  | handler (fn : ErrorHandler)

/-- The struct `QueueOpts`; absent options are `none`. The `End` callback is
a procedure that returns; its calls are counted in `World.ended`. -/
structure QueueOpts where
  Actions : List Action
  Name : String
  Logger : Option Logger
  LockingContext : Option LockManager
  OnError : Option ErrorHandler

/-- The struct `Queue`. The field `lockManager` holds the registry of the
manager the queue refers to. -/
structure Queue where
  name : String
  queue : List Action
  logger : Logger
  lockManager : LockManager
  context : Context
  onError : OnError

/-- The constructor `NewQueue`. -/
def NewQueue (opts : QueueOpts) : Queue where
  name := if opts.Name = "" then "default queue name" else opts.Name
  queue := [] ++ opts.Actions
  logger :=
    match opts.Logger with
    | none => defaultLogger
    | some logger => logger
  lockManager :=
    match opts.LockingContext with
    | none => NewLockManager
    | some manager => manager
  context := newContext
  onError :=
    match opts.OnError with
    | none => .defaultErrorHandler
    | some fn => .handler fn

/-- The method `Queue.Push`: a non-empty batch is put in front of the
pending list. -/
def Queue.Push (actions : List Action) (q : Queue) : Queue :=
  if actions.length = 0 then q else { q with queue := actions ++ q.queue }

/-- The method `Queue.Abort`: the pending list is cut to length zero. -/
def Queue.Abort (q : Queue) : Queue :=
  { q with queue := q.queue.take 0 }

/-- One hook call of user code arriving at the queue, through the context
built by `NewQueue` (hooks `queue.Push` and `queue.Abort`). -/
def Queue.hookCall (q : Queue) : QueueCall Action → Queue
  | .push actions => Context.Push (some Queue.Push) actions q
  | .abort => Context.Abort (some Queue.Abort) q

/-- The queue after a piece of user code ran against its context: the state
the code left, then its hook calls in program order. -/
def Queue.absorb {ρ : Type} (q : Queue) (r : Effect Action ρ) : Queue :=
  r.calls.foldl Queue.hookCall { q with context := r.env.ctx, lockManager := r.env.locks }

/-- The method `Queue.executeSafe`: the returned error, with a panic of the
action recovered into an error; `none` when the action never returns. -/
def Queue.executeSafe (q : Queue) (action : Action) : Option (Queue × Option GoError) :=
  let r := action.body ⟨q.context, q.lockManager⟩
  match r.finish with
  | .returned err => some (q.absorb r, err)
  | .panic v => some (q.absorb r, some (recoveredError v))
  | .hang => none

/-- The function `defaultErrorHandler`, on the context of `q`: log to the
context's `Logger` (else to the one found in `Data`), then `ctx.Abort()`. -/
def defaultErrorHandler (err : GoError) (q : Queue) (w : World) : Queue × World :=
  let logger :=
    match q.context.Logger with
    | some l => some l
    | none => q.context.LoggerFromData
  let w :=
    match logger with
    | some l => w.log l (.Error err)
    | none => w
  (Context.Abort (some Queue.Abort) q, w)

/-- The method `Queue.handleError`: call `onError`; a panic of the handler is
recovered, logged to the queue's logger and followed by `context.Abort()`. -/
def Queue.handleError (q : Queue) (err : GoError) (w : World) : Option (Queue × World) :=
  let w := { w with handled := w.handled ++ [err] }
  match q.onError with
  | .defaultErrorHandler => some (defaultErrorHandler err q w)
  | .handler fn =>
    let r := fn err ⟨q.context, q.lockManager⟩
    match r.finish with
    | .returned _ => some (q.absorb r, w)
    | .panic v =>
      let w := w.log q.logger (.Info ("Queue(" ++ q.name ++ ") onError failed"))
      let w := w.log q.logger (.Error (recoveredError v))
      some (Context.Abort (some Queue.Abort) (q.absorb r), w)
    | .hang => none

/-- The body of the `for` loop of `Queue.Run` once the pending list is known
to be non-empty (`action` is its head, `rest` its tail). -/
def Queue.iteration (q : Queue) (action : Action) (rest : List Action) (w : World) :
    Option (Queue × World) :=
  let q := { q with queue := rest }
  let w := w.log q.logger (.SetContext action.name)
  let w := w.log q.logger (.Info ("Queue(" ++ q.name ++ "): running action"))
  match q.executeSafe action with
  | none => none
  | some (q, none) => some (q, { w with executed := w.executed ++ [(action, none)] })
  | some (q, some err) =>
    q.handleError err { w with executed := w.executed ++ [(action, some err)] }

/-- The `for` loop of `Queue.Run`, at most `fuel` passes: `none` when the
loop has not left after `fuel` passes or a pass never returns. -/
def Queue.loop : Nat → Queue → World → Option (Queue × World)
  | 0, _, _ => none
  | fuel + 1, q, w =>
    match q.queue with
    | [] => some (q, w.log q.logger (.Info ("Queue(" ++ q.name ++ "): stopped")))
    | action :: rest =>
      match q.iteration action rest w with
      | none => none
      | some (q, w) => Queue.loop fuel q w

/-- The first statements of `Queue.Run`: a nil `initial` becomes the empty
map, and the context is initialised from it. -/
def Queue.initialized (q : Queue) (initial : Option GoMap) : Queue :=
  let initial :=
    match initial with
    | none => []
    | some m => m
  { q with context := q.context.Initialize initial }

/-- The method `Queue.Run`: initialise the context, run the loop, and on the
way out call the end callback (the deferred `queue.end()`). The deferred
`recover` has nothing to recover: the loop contains every panic of user code
in `executeSafe` and `handleError`. -/
def Queue.Run (fuel : Nat) (q : Queue) (initial : Option GoMap) (w : World) :
    Option (Queue × World) :=
  match Queue.loop fuel (q.initialized initial) w with
  | none => none
  | some (q, w) => some (q, { w with ended := w.ended + 1 })

/-! ## Action combinators (action.go) -/

/-- The combinator `WithErrorHandler`; a nil handler is `none`. -/
def WithErrorHandler (action : Action) (handler : Option ErrorHandler) : Action :=
  .mk "WithErrorHandler.func1" fun env =>
    let r := action.body env
    match r.finish, handler with
    | .returned (some err), some h =>
      let hr := h err r.env
      match hr.finish with
      | .returned _ => ⟨hr.env, r.calls ++ hr.calls, .returned none⟩
      | .panic v => ⟨hr.env, r.calls ++ hr.calls, .panic v⟩
      | .hang => ⟨hr.env, r.calls ++ hr.calls, .hang⟩
    | _, _ => r

/-- The combinator `WithLock`. The flag `locking` tells whether the context
the returned action is called on carries a locking capability (`ctx != nil`
and `ctx.locking != nil`), as every context built by `NewQueue` does; the
capability is the lock manager of `env`. -/
def WithLock (locking : Bool) (scope : String) (action : Action) : Action :=
  match ValidateScope scope with
  | some err => .mk "WithLock.func1" fun env => ⟨env, [], .returned (some err)⟩
  | none =>
    .mk "WithLock.func2" fun env =>
      if locking then LockManager.RunWithLock scope action.body env
      else action.body env

/-! ## Helpers (util.go) -/

/-- The struct `Branches`; an absent branch is the empty list. -/
structure Branches where
  Then : List Action
  Else : List Action

/-- The type `Condition` (`func(ctx *Context) (bool, error)`). -/
abbrev Condition := Env → Effect Action (Bool × Option GoError)

/-- The type `Validator` (`func(ctx *Context) (bool, error)`). -/
abbrev Validator := Env → Effect Action (Bool × Option GoError)

/-- The action `Util.Abort`, a function literal in the initialiser of the
package variable `Util`. -/
def Util.Abort : Action :=
  .mk "init.func1" fun env => ⟨env, [.abort], .returned none⟩

/-- The helper `Util.If`. -/
def Util.If (condition : Condition) (branches : Branches) : Action :=
  .mk "utilHelper.If.func1" fun env =>
    let r := condition env
    match r.finish with
    | .returned (_, some err) => ⟨r.env, r.calls, .returned (some err)⟩
    | .returned (result, none) =>
      if result then ⟨r.env, r.calls ++ [.push branches.Then], .returned none⟩
      else if branches.Else.length > 0 then
        ⟨r.env, r.calls ++ [.push branches.Else], .returned none⟩
      else ⟨r.env, r.calls, .returned none⟩
    | .panic v => ⟨r.env, r.calls, .panic v⟩
    | .hang => ⟨r.env, r.calls, .hang⟩

/-- The helper `Util.Valid`. -/
def Util.Valid (validator : Validator) (actions : List Action) : Action :=
  .mk "utilHelper.Valid.func1" fun env =>
    let r := validator env
    match r.finish with
    | .returned (_, some err) => ⟨r.env, r.calls, .returned (some err)⟩
    | .returned (result, none) =>
      if result then ⟨r.env, r.calls ++ [.push actions], .returned none⟩
      else ⟨r.env, r.calls, .returned none⟩
    | .panic v => ⟨r.env, r.calls, .panic v⟩
    | .hang => ⟨r.env, r.calls, .hang⟩

/-! ## Runner (runner.go) -/

set_option linter.dupNamespace false

/-- The character of one decimal digit. -/
def digitChar (d : Nat) : Char := Char.ofNat (48 + d)

/-- The formatting `%d` of an unsigned integer: its decimal digits, most
significant first. -/
def formatUint (n : Nat) : String :=
  if n = 0 then "0" else String.mk ((Nat.digits 10 n).reverse.map digitChar)

/-- The struct `RunnerOpts`. -/
structure RunnerOpts where
  Logger : Option Logger

/-- The struct `QueueRunner`: the live mapping `queues` (as its entries), the
listeners (a listener is identified by a number), the logger, the registry
of the shared lock manager and the `uint64` counter. -/
structure QueueRunner where
  queues : List (String × Queue)
  listeners : List Nat
  logger : Option Logger
  locking : LockManager
  counter : Nat

/-- The constructor `NewQueueRunner`. -/
def NewQueueRunner (opts : RunnerOpts) : QueueRunner where
  queues := []
  listeners := []
  logger := opts.Logger
  locking := NewLockManager
  counter := 0

/-- The map write `queues[name] = queue`. -/
def setQueue : List (String × Queue) → String → Queue → List (String × Queue)
  | [], name, queue => [(name, queue)]
  | (k, v) :: rest, name, queue =>
    if k = name then (k, queue) :: rest else (k, v) :: setQueue rest name queue

/-- The map deletion `delete(queues, name)`. -/
def deleteQueue (queues : List (String × Queue)) (name : String) : List (String × Queue) :=
  queues.filter (fun entry => entry.1 ≠ name)

/-- The method `QueueRunner.getName`: `atomic.AddUint64(&counter, 1)`, and the
new value formatted into "queue-%d". -/
def QueueRunner.getName (runner : QueueRunner) : String × QueueRunner :=
  let id := (runner.counter + 1) % 2 ^ 64
  ("queue-" ++ formatUint id, { runner with counter := id })

/-- The first statements of `QueueRunner.Add`: the name the queue gets. -/
def QueueRunner.resolveName (runner : QueueRunner) (name : String) : String × QueueRunner :=
  if name = "" then runner.getName else (name, runner)

/-- The method `QueueRunner.Add`, up to the start of the queue's own thread
of control: the queue is built under the resolved name, with the runner's
logger and lock manager and no custom error handler, and it is registered.
The queue's `End` callback is `onQueueEnd` of that name; the queue then runs
on the seed `_context` on its own. -/
def QueueRunner.Add (runner : QueueRunner) (actions : List Action)
    (_context : Option GoMap) (name : String) : QueueRunner :=
  let resolved := runner.resolveName name
  let queue := NewQueue ⟨actions, resolved.1, resolved.2.logger, some resolved.2.locking, none⟩
  { resolved.2 with queues := setQueue resolved.2.queues resolved.1 queue }

/-- The method `QueueRunner.AddEndListener`. -/
def QueueRunner.AddEndListener (runner : QueueRunner) (listener : Nat) : QueueRunner :=
  { runner with listeners := runner.listeners ++ [listener] }

/-- A call of an end listener: which listener, and its two arguments. -/
structure ListenerCall where
  listener : Nat
  name : String
  size : Nat
deriving DecidableEq, Repr

/-- The method `QueueRunner.onQueueEnd`: the runner afterwards and the calls
made on the listeners, in order. -/
def QueueRunner.onQueueEnd (runner : QueueRunner) (name : String) :
    QueueRunner × List ListenerCall :=
  let queues := deleteQueue runner.queues name
  let size := queues.length
  ({ runner with queues := queues }, runner.listeners.map fun l => ⟨l, name, size⟩)

/-- What happens to a runner: a call of `Add`, a call of `AddEndListener`, or
the end callback of a queue that was added under `name`. -/
inductive RunnerEvent where
  | add (actions : List Action) (context : Option GoMap) (name : String)
  | addEndListener (listener : Nat)
  | queueEnd (name : String)

/-- A runner together with what an observer keeps track of: the names of the
queues added and not yet completed (one entry per queue), and all the calls
made on listeners so far. -/
structure RunnerState where
  runner : QueueRunner
  live : List String
  notified : List ListenerCall

/-- The state around a new runner. -/
def RunnerState.init (opts : RunnerOpts) : RunnerState :=
  ⟨NewQueueRunner opts, [], []⟩

/-- One event. -/
def RunnerState.step (st : RunnerState) : RunnerEvent → RunnerState
  | .add actions context name =>
    { st with
      runner := st.runner.Add actions context name
      live := (st.runner.resolveName name).1 :: st.live }
  | .addEndListener listener => { st with runner := st.runner.AddEndListener listener }
  | .queueEnd name =>
    { runner := (st.runner.onQueueEnd name).1
      live := st.live.erase name
      notified := st.notified ++ (st.runner.onQueueEnd name).2 }

/-- A sequence of events. -/
def RunnerState.run (st : RunnerState) (events : List RunnerEvent) : RunnerState :=
  events.foldl RunnerState.step st

/-- The event is a call of `Add` with the empty name. -/
def RunnerEvent.isAuto : RunnerEvent → Bool
  | .add _ _ name => decide (name = "")
  | _ => false

/-- For each call of `Add` with the empty name in a sequence of events, in
order: the number `getName` drew from the counter and the name the queue
got. -/
def autoAssigned : QueueRunner → List RunnerEvent → List (Nat × String)
  | _, [] => []
  | runner, .add actions context name :: rest =>
    if name = "" then
      ((runner.getName).2.counter, (runner.resolveName name).1) ::
        autoAssigned (runner.Add actions context name) rest
    else autoAssigned (runner.Add actions context name) rest
  | runner, .addEndListener listener :: rest =>
    autoAssigned (runner.AddEndListener listener) rest
  | runner, .queueEnd name :: rest => autoAssigned (runner.onQueueEnd name).1 rest

/-- The event can happen in the state: a queue ends only if it was added and
has not ended yet. -/
def RunnerState.Possible (st : RunnerState) : RunnerEvent → Prop
  | .queueEnd name => name ∈ st.live
  | _ => True

/-- Every event of the sequence can happen when its turn comes. -/
def RunnerState.Orderly : RunnerState → List RunnerEvent → Prop
  | _, [] => True
  | st, ev :: rest => st.Possible ev ∧ RunnerState.Orderly (st.step ev) rest

/-- The live mapping of the runner holds exactly the names of the live
queues, each once. -/
def RunnerState.Tracked (st : RunnerState) : Prop :=
  (st.runner.queues.map Prod.fst).Perm st.live ∧ st.live.Nodup

/-- The event does not add a queue under the name of a queue that is live. -/
def RunnerState.Fresh (st : RunnerState) : RunnerEvent → Prop
  | .add _ _ name => (st.runner.resolveName name).1 ∉ st.live
  | _ => True

/-- No queue of the sequence is added under the name of a queue that is live
at that moment. -/
def RunnerState.DistinctNames : RunnerState → List RunnerEvent → Prop
  | _, [] => True
  | st, ev :: rest => st.Fresh ev ∧ RunnerState.DistinctNames (st.step ev) rest

/-! ## Vocabulary of the properties -/

/-- The action neither fails, pushes nor aborts, in whatever state it runs. -/
def Action.Plain (a : Action) : Prop :=
  ∀ env, (a.body env).calls = [] ∧ (a.body env).finish = .returned none

/-- The action never calls `Push` or `Abort`, and it returns or panics. -/
def Action.Quiet (a : Action) : Prop :=
  ∀ env, (a.body env).calls = [] ∧ (a.body env).finish ≠ .hang

/-- Run in `env`, the action fails with `err`: it returns `err`, or it
panics with a value that `recover` turns into `err`. -/
def Action.FailsWith (a : Action) (env : Env) (err : GoError) : Prop :=
  (a.body env).finish = .returned (some err) ∨
    ∃ v, (a.body env).finish = .panic v ∧ recoveredError v = err

/-- The logger `defaultErrorHandler` resolves on a context: the field
`Logger`, else the logger found in `Data`. -/
def Context.errorLogger (ctx : Context) : Option QueueRunner.Logger :=
  match ctx.Logger with
  | some l => some l
  | none => ctx.LoggerFromData

/-- The action leaves in place the logger that `defaultErrorHandler` would
resolve on the context. -/
def Action.KeepsLogger (a : Action) : Prop :=
  ∀ env, (a.body env).env.ctx.errorLogger = env.ctx.errorLogger

/-- The hook call is not a `Push`. -/
def QueueCall.isAbort {α : Type} : QueueCall α → Bool
  | .abort => true
  | .push _ => false

/-- The world once a pass has announced and executed `action`. -/
def World.afterAction (w : World) (q : Queue) (action : Action) (err : Option GoError) : World :=
  { (w.log q.logger (.SetContext action.name)).log q.logger
      (.Info ("Queue(" ++ q.name ++ "): running action")) with
    executed := w.executed ++ [(action, err)] }

/-- The configured handler never calls `Push` and does not block: the
default handler, or a custom one whose hook calls are all `Abort`. -/
def OnError.PushesNothing : OnError → Prop
  | .defaultErrorHandler => True
  | .handler fn =>
    ∀ err env, (∀ c ∈ (fn err env).calls, c.isAbort = true) ∧ (fn err env).finish ≠ .hang

/-- The handler calls neither `Abort` nor `Push`, and it returns. -/
def Swallows (fn : ErrorHandler) : Prop :=
  ∀ err env, (fn err env).calls = [] ∧ (fn err env).finish = .returned ()

/-- The state in which the action next in line runs once the actions of the
list have run in turn from `env`, each in the state its predecessor left. -/
def envAfter : List Action → Env → Env
  | [], env => env
  | a :: rest, env => envAfter rest (a.body env).env

/-- Run in turn from `env`, each in the state its predecessor left, every
action of the list returns nil, without a call of `Push` or `Abort`. -/
def SucceedFrom : List Action → Env → Prop
  | [], _ => True
  | a :: rest, env =>
    (a.body env).calls = [] ∧ (a.body env).finish = .returned none ∧
      SucceedFrom rest (a.body env).env

/-- The failure of the action run in `env`: the error it returns, or the
error its panic is recovered into; `none` when it returns nil (and for an
action that never returns, which has no outcome). -/
def Action.failure (a : Action) (env : Env) : Option GoError :=
  match (a.body env).finish with
  | .returned err => err
  | .panic v => some (recoveredError v)
  | .hang => none

/-- What "every action exactly once, in the original order, whichever of
them fail, the handler called once per failing action with its error" asks
of a list of actions started in `env`: each action with its failure, where
an action runs in the state its predecessor left, or, behind a failure, in
the state the handler left when called with that failure. -/
def everyActionOnce (onError : ErrorHandler) :
    List Action → Env → List (Action × Option GoError)
  | [], _ => []
  | a :: rest, env =>
    match a.failure env with
    | none => (a, none) :: everyActionOnce onError rest (a.body env).env
    | some e => (a, some e) :: everyActionOnce onError rest (onError e (a.body env).env).env

/-! ## Sample actions and handlers -/

/-- An action that does nothing and returns nil. -/
def Action.noop (name : String) : Action :=
  .mk name fun env => ⟨env, [], .returned none⟩

/-- An action that calls `ctx.Push(batch)` and returns nil. -/
def Action.pushing (name : String) (batch : List Action) : Action :=
  .mk name fun env => ⟨env, [.push batch], .returned none⟩

/-- An action that calls `ctx.Abort()` and returns nil. -/
def Action.aborting (name : String) : Action :=
  .mk name fun env => ⟨env, [.abort], .returned none⟩

/-- An action that returns the error `err`. -/
def Action.failing (name : String) (err : GoError) : Action :=
  .mk name fun env => ⟨env, [], .returned (some err)⟩

/-- An action that panics with the value `v`. -/
def Action.panicking (name : String) (v : PanicValue) : Action :=
  .mk name fun env => ⟨env, [], .panic v⟩

/-- An action that assigns `ctx.Logger = logger` and returns the error `err`. -/
def Action.failingWithLogger (name : String) (logger : Logger) (err : GoError) : Action :=
  .mk name fun env => ⟨{ env with ctx := { env.ctx with Logger := some logger } }, [],
    .returned (some err)⟩

/-- A handler that returns without touching anything (it swallows the error). -/
def swallow : ErrorHandler :=
  fun _ env => ⟨env, [], .returned ()⟩

/-- A handler that panics with the value `v`. -/
def panickingHandler (v : PanicValue) : ErrorHandler :=
  fun _ env => ⟨env, [], .panic v⟩

/-- A queue named "Q" with logger 1, a fresh lock manager, the given
actions and the given `OnError` option. -/
def sampleQueue (actions : List Action) (onError : Option ErrorHandler) : Queue :=
  NewQueue ⟨actions, "Q", some (.ref 1), none, onError⟩

/-! ## Basic facts about the hooks -/

@[simp] theorem body_mk (name : String) (body : Env → Effect Action (Option GoError)) :
    (Action.mk name body).body = body := rfl

@[simp] theorem name_mk (name : String) (body : Env → Effect Action (Option GoError)) :
    (Action.mk name body).name = name := rfl

@[simp] theorem hookCall_name (q : Queue) (c : QueueCall Action) :
    (q.hookCall c).name = q.name := by
  cases c <;> simp [Queue.hookCall, Context.Push, Context.Abort, Queue.Push, Queue.Abort]
  split <;> rfl

@[simp] theorem hookCall_logger (q : Queue) (c : QueueCall Action) :
    (q.hookCall c).logger = q.logger := by
  cases c <;> simp [Queue.hookCall, Context.Push, Context.Abort, Queue.Push, Queue.Abort]
  split <;> rfl

@[simp] theorem hookCall_onError (q : Queue) (c : QueueCall Action) :
    (q.hookCall c).onError = q.onError := by
  cases c <;> simp [Queue.hookCall, Context.Push, Context.Abort, Queue.Push, Queue.Abort]
  split <;> rfl

@[simp] theorem hookCall_context (q : Queue) (c : QueueCall Action) :
    (q.hookCall c).context = q.context := by
  cases c <;> simp [Queue.hookCall, Context.Push, Context.Abort, Queue.Push, Queue.Abort]
  split <;> rfl

@[simp] theorem hookCall_lockManager (q : Queue) (c : QueueCall Action) :
    (q.hookCall c).lockManager = q.lockManager := by
  cases c <;> simp [Queue.hookCall, Context.Push, Context.Abort, Queue.Push, Queue.Abort]
  split <;> rfl

@[simp] theorem hookCall_push_queue (q : Queue) (actions : List Action) :
    (q.hookCall (.push actions)).queue = actions ++ q.queue := by
  cases actions <;> simp [Queue.hookCall, Context.Push, Queue.Push]

@[simp] theorem hookCall_abort_queue (q : Queue) :
    (q.hookCall .abort).queue = [] := by
  simp [Queue.hookCall, Context.Abort, Queue.Abort]

theorem foldl_hookCall_fields (calls : List (QueueCall Action)) (q : Queue) :
    (calls.foldl Queue.hookCall q).name = q.name ∧
    (calls.foldl Queue.hookCall q).logger = q.logger ∧
    (calls.foldl Queue.hookCall q).onError = q.onError ∧
    (calls.foldl Queue.hookCall q).context = q.context ∧
    (calls.foldl Queue.hookCall q).lockManager = q.lockManager := by
  induction calls generalizing q with
  | nil => simp
  | cons c cs ih =>
    have h := ih (q.hookCall c)
    simpa using h

@[simp] theorem absorb_name {ρ : Type} (q : Queue) (r : Effect Action ρ) :
    (q.absorb r).name = q.name :=
  (foldl_hookCall_fields r.calls _).1

@[simp] theorem absorb_logger {ρ : Type} (q : Queue) (r : Effect Action ρ) :
    (q.absorb r).logger = q.logger :=
  (foldl_hookCall_fields r.calls _).2.1

@[simp] theorem absorb_onError {ρ : Type} (q : Queue) (r : Effect Action ρ) :
    (q.absorb r).onError = q.onError :=
  (foldl_hookCall_fields r.calls _).2.2.1

@[simp] theorem absorb_context {ρ : Type} (q : Queue) (r : Effect Action ρ) :
    (q.absorb r).context = r.env.ctx :=
  (foldl_hookCall_fields r.calls _).2.2.2.1

@[simp] theorem absorb_lockManager {ρ : Type} (q : Queue) (r : Effect Action ρ) :
    (q.absorb r).lockManager = r.env.locks :=
  (foldl_hookCall_fields r.calls _).2.2.2.2

theorem absorb_queue_of_no_calls {ρ : Type} (q : Queue) (r : Effect Action ρ)
    (h : r.calls = []) : (q.absorb r).queue = q.queue := by
  simp [Queue.absorb, h]

theorem absorb_queue_of_push {ρ : Type} (q : Queue) (r : Effect Action ρ) (P : List Action)
    (h : r.calls = [.push P]) : (q.absorb r).queue = P ++ q.queue := by
  simp [Queue.absorb, h]

/-- Hook calls that are all `Abort` keep an empty pending list empty. -/
theorem foldl_aborts_queue (calls : List (QueueCall Action)) (q : Queue)
    (hq : q.queue = []) (h : ∀ c ∈ calls, c.isAbort = true) :
    (calls.foldl Queue.hookCall q).queue = [] := by
  induction calls generalizing q with
  | nil => simpa using hq
  | cons c cs ih =>
    have hc : c.isAbort = true := h c (by simp)
    have hcs : ∀ d ∈ cs, d.isAbort = true := fun d hd => h d (by simp [hd])
    cases c with
    | push actions => simp [QueueCall.isAbort] at hc
    | abort => exact ih (q.hookCall .abort) (by simp) hcs

/-- After an `Abort` that is followed by no `Push`, nothing is pending. -/
theorem absorb_queue_of_abort {ρ : Type} (q : Queue) (r : Effect Action ρ)
    (before after : List (QueueCall Action))
    (h : r.calls = before ++ .abort :: after) (hafter : ∀ c ∈ after, c.isAbort = true) :
    (q.absorb r).queue = [] := by
  unfold Queue.absorb
  rw [h, List.foldl_append, List.foldl_cons]
  exact foldl_aborts_queue after _ (by simp) hafter

/-! ## One pass of the loop -/

theorem executeSafe_returned (q : Queue) (a : Action) (err : Option GoError)
    (h : (a.body ⟨q.context, q.lockManager⟩).finish = .returned err) :
    q.executeSafe a = some (q.absorb (a.body ⟨q.context, q.lockManager⟩), err) := by
  simp [Queue.executeSafe, h]

theorem executeSafe_panic (q : Queue) (a : Action) (v : PanicValue)
    (h : (a.body ⟨q.context, q.lockManager⟩).finish = .panic v) :
    q.executeSafe a =
      some (q.absorb (a.body ⟨q.context, q.lockManager⟩), some (recoveredError v)) := by
  simp [Queue.executeSafe, h]

theorem iteration_ok (q : Queue) (a : Action) (rest : List Action) (w : World)
    (h : (a.body ⟨q.context, q.lockManager⟩).finish = .returned none) :
    q.iteration a rest w =
      some (({ q with queue := rest } : Queue).absorb (a.body ⟨q.context, q.lockManager⟩),
        w.afterAction q a none) := by
  simp [Queue.iteration, Queue.executeSafe, h, World.afterAction, World.log]

theorem iteration_fail (q : Queue) (a : Action) (rest : List Action) (w : World)
    (err : GoError)
    (h : q.executeSafe a = some (q.absorb (a.body ⟨q.context, q.lockManager⟩), some err)) :
    q.iteration a rest w =
      (({ q with queue := rest } : Queue).absorb
        (a.body ⟨q.context, q.lockManager⟩)).handleError err (w.afterAction q a (some err)) := by
  have h2 : ({ q with queue := rest } : Queue).executeSafe a =
      some (({ q with queue := rest } : Queue).absorb (a.body ⟨q.context, q.lockManager⟩),
        some err) := by
    unfold Queue.executeSafe at h ⊢
    simp only at h ⊢
    split at h <;> simp_all
  simp [Queue.iteration, h2, World.afterAction, World.log]

@[simp] theorem afterAction_executed (w : World) (q : Queue) (a : Action)
    (err : Option GoError) :
    (w.afterAction q a err).executed = w.executed ++ [(a, err)] := rfl

@[simp] theorem afterAction_handled (w : World) (q : Queue) (a : Action)
    (err : Option GoError) : (w.afterAction q a err).handled = w.handled := rfl

@[simp] theorem afterAction_ended (w : World) (q : Queue) (a : Action)
    (err : Option GoError) : (w.afterAction q a err).ended = w.ended := rfl

@[simp] theorem afterAction_logs (w : World) (q : Queue) (a : Action)
    (err : Option GoError) :
    (w.afterAction q a err).logs =
      w.logs ++ [⟨q.logger, .SetContext a.name⟩,
        ⟨q.logger, .Info ("Queue(" ++ q.name ++ "): running action")⟩] := by
  simp [World.afterAction, World.log]

theorem loop_nil (fuel : Nat) (q : Queue) (w : World) (hq : q.queue = []) :
    Queue.loop (fuel + 1) q w =
      some (q, w.log q.logger (.Info ("Queue(" ++ q.name ++ "): stopped"))) := by
  simp [Queue.loop, hq]

theorem loop_cons (fuel : Nat) (q : Queue) (w : World) (a : Action) (rest : List Action)
    (hq : q.queue = a :: rest) (q1 : Queue) (w1 : World)
    (hit : q.iteration a rest w = some (q1, w1)) :
    Queue.loop (fuel + 1) q w = Queue.loop fuel q1 w1 := by
  simp [Queue.loop, hq, hit]

/-- A pending list of plain actions is executed front to back, and the loop
leaves once it is empty. -/
theorem loop_plain (as : List Action) (hplain : ∀ a ∈ as, a.Plain) (fuel : Nat) (q : Queue)
    (w : World) (hq : q.queue = as) (hfuel : as.length + 1 ≤ fuel) :
    ∃ q1 w1, Queue.loop fuel q w = some (q1, w1) ∧ q1.queue = [] ∧
      w1.executed = w.executed ++ as.map (fun a => (a, none)) ∧
      w1.handled = w.handled ∧ w1.ended = w.ended := by
  induction as generalizing fuel q w with
  | nil =>
    obtain ⟨f, rfl⟩ : ∃ f, fuel = f + 1 := ⟨fuel - 1, by simp at hfuel; omega⟩
    exact ⟨q, _, loop_nil f q w hq, hq, by simp [World.log], rfl, rfl⟩
  | cons a as ih =>
    obtain ⟨f, rfl⟩ : ∃ f, fuel = f + 1 := ⟨fuel - 1, by simp at hfuel; omega⟩
    have ha := hplain a (by simp) ⟨q.context, q.lockManager⟩
    have hit := iteration_ok q a as w ha.2
    rw [loop_cons f q w a as hq _ _ hit]
    have hq1 : (({ q with queue := as } : Queue).absorb
        (a.body ⟨q.context, q.lockManager⟩)).queue = as := by
      rw [absorb_queue_of_no_calls _ _ ha.1]
    obtain ⟨q2, w2, h1, h2, h3, h4, h5⟩ :=
      ih (fun b hb => hplain b (by simp [hb])) f _ (w.afterAction q a none) hq1
        (by simp at hfuel; omega)
    exact ⟨q2, w2, h1, h2, by simp [h3], by simp [h4], by simp [h5]⟩

theorem noop_plain (name : String) : (Action.noop name).Plain :=
  fun _ => ⟨rfl, rfl⟩

theorem noop_quiet (name : String) : (Action.noop name).Quiet :=
  fun _ => ⟨rfl, by simp [Action.noop, Action.body]⟩

theorem failing_quiet (name : String) (err : GoError) : (Action.failing name err).Quiet :=
  fun _ => ⟨rfl, by simp [Action.failing, Action.body]⟩

theorem panicking_quiet (name : String) (v : PanicValue) :
    (Action.panicking name v).Quiet :=
  fun _ => ⟨rfl, by simp [Action.panicking, Action.body]⟩

@[simp] theorem initialized_queue (q : Queue) (initial : Option GoMap) :
    (q.initialized initial).queue = q.queue := rfl

@[simp] theorem initialized_name (q : Queue) (initial : Option GoMap) :
    (q.initialized initial).name = q.name := rfl

@[simp] theorem initialized_logger (q : Queue) (initial : Option GoMap) :
    (q.initialized initial).logger = q.logger := rfl

@[simp] theorem initialized_onError (q : Queue) (initial : Option GoMap) :
    (q.initialized initial).onError = q.onError := rfl

@[simp] theorem initialized_lockManager (q : Queue) (initial : Option GoMap) :
    (q.initialized initial).lockManager = q.lockManager := rfl

theorem run_of_loop (fuel : Nat) (q : Queue) (initial : Option GoMap) (w : World)
    (q1 : Queue) (w1 : World) (h : Queue.loop fuel (q.initialized initial) w = some (q1, w1)) :
    q.Run fuel initial w = some (q1, { w1 with ended := w1.ended + 1 }) := by
  simp [Queue.Run, h]

/-! ## The error handler -/

@[simp] theorem defaultErrorHandler_queue (err : GoError) (q : Queue) (w : World) :
    (defaultErrorHandler err q w).1.queue = [] := by
  simp [defaultErrorHandler, Context.Abort, Queue.Abort]

@[simp] theorem defaultErrorHandler_executed (err : GoError) (q : Queue) (w : World) :
    (defaultErrorHandler err q w).2.executed = w.executed := by
  simp only [defaultErrorHandler]
  split <;> simp [World.log]

@[simp] theorem defaultErrorHandler_handled (err : GoError) (q : Queue) (w : World) :
    (defaultErrorHandler err q w).2.handled = w.handled := by
  simp only [defaultErrorHandler]
  split <;> simp [World.log]

@[simp] theorem defaultErrorHandler_ended (err : GoError) (q : Queue) (w : World) :
    (defaultErrorHandler err q w).2.ended = w.ended := by
  simp only [defaultErrorHandler]
  split <;> simp [World.log]

theorem handleError_default (q : Queue) (err : GoError) (w : World)
    (h : q.onError = .defaultErrorHandler) :
    q.handleError err w =
      some (defaultErrorHandler err q { w with handled := w.handled ++ [err] }) := by
  simp [Queue.handleError, h]

theorem handleError_returned (q : Queue) (err : GoError) (w : World) (fn : ErrorHandler)
    (h : q.onError = .handler fn) (u : Unit)
    (hf : (fn err ⟨q.context, q.lockManager⟩).finish = .returned u) :
    q.handleError err w =
      some (q.absorb (fn err ⟨q.context, q.lockManager⟩),
        { w with handled := w.handled ++ [err] }) := by
  simp [Queue.handleError, h, hf]

theorem handleError_panic (q : Queue) (err : GoError) (w : World) (fn : ErrorHandler)
    (h : q.onError = .handler fn) (v : PanicValue)
    (hf : (fn err ⟨q.context, q.lockManager⟩).finish = .panic v) :
    q.handleError err w =
      some (Context.Abort (some Queue.Abort) (q.absorb (fn err ⟨q.context, q.lockManager⟩)),
        (({ w with handled := w.handled ++ [err] } : World).log q.logger
          (.Info ("Queue(" ++ q.name ++ ") onError failed"))).log q.logger
          (.Error (recoveredError v))) := by
  simp [Queue.handleError, h, hf]

/-- The default handler empties the pending list and records the error. -/
theorem handleError_default_facts (q : Queue) (err : GoError) (w : World)
    (h : q.onError = .defaultErrorHandler) :
    ∃ q1 w1, q.handleError err w = some (q1, w1) ∧ q1.queue = [] ∧
      w1.executed = w.executed ∧ w1.handled = w.handled ++ [err] ∧ w1.ended = w.ended := by
  refine ⟨(defaultErrorHandler err q { w with handled := w.handled ++ [err] }).1,
    (defaultErrorHandler err q { w with handled := w.handled ++ [err] }).2,
    handleError_default q err w h, ?_, ?_, ?_, ?_⟩
  · exact defaultErrorHandler_queue _ _ _
  · exact defaultErrorHandler_executed _ _ _
  · exact defaultErrorHandler_handled _ _ _
  · exact defaultErrorHandler_ended _ _ _

/-- A handler that pushes nothing leaves an empty pending list empty. -/
theorem handleError_keeps_empty (q : Queue) (err : GoError) (w : World)
    (hq : q.queue = []) (hH : q.onError.PushesNothing) :
    ∃ q1 w1, q.handleError err w = some (q1, w1) ∧ q1.queue = [] ∧
      w1.executed = w.executed ∧ w1.handled = w.handled ++ [err] ∧ w1.ended = w.ended := by
  cases hon : q.onError with
  | defaultErrorHandler =>
    refine ⟨(defaultErrorHandler err q { w with handled := w.handled ++ [err] }).1,
      (defaultErrorHandler err q { w with handled := w.handled ++ [err] }).2,
      handleError_default q err w hon, ?_, ?_, ?_, ?_⟩
    · exact defaultErrorHandler_queue _ _ _
    · exact defaultErrorHandler_executed _ _ _
    · exact defaultErrorHandler_handled _ _ _
    · exact defaultErrorHandler_ended _ _ _
  | handler fn =>
    rw [hon] at hH
    obtain ⟨hcalls, hfin⟩ := hH err ⟨q.context, q.lockManager⟩
    have hempty : (q.absorb (fn err ⟨q.context, q.lockManager⟩)).queue = [] :=
      foldl_aborts_queue _ _ hq hcalls
    cases hf : (fn err ⟨q.context, q.lockManager⟩).finish with
    | returned u =>
      exact ⟨_, _, handleError_returned q err w fn hon u hf, hempty, rfl, rfl, rfl⟩
    | panic v =>
      exact ⟨_, _, handleError_panic q err w fn hon v hf,
        by simp [Context.Abort, Queue.Abort], by simp [World.log], by simp [World.log],
        by simp [World.log]⟩
    | hang => exact absurd hf hfin

/-- A pass whose action calls `Abort` and has nothing pushed after it ends
with an empty pending list. -/
theorem iteration_after_abort (q : Queue) (A : Action) (rest : List Action) (w : World)
    (before after : List (QueueCall Action))
    (hcalls : (A.body ⟨q.context, q.lockManager⟩).calls = before ++ .abort :: after)
    (hafter : ∀ c ∈ after, c.isAbort = true)
    (hturn : (A.body ⟨q.context, q.lockManager⟩).finish = .returned none ∨
      ((A.body ⟨q.context, q.lockManager⟩).finish ≠ .hang ∧ q.onError.PushesNothing)) :
    ∃ q1 w1 err, q.iteration A rest w = some (q1, w1) ∧ q1.queue = [] ∧
      w1.executed = w.executed ++ [(A, err)] ∧ w1.ended = w.ended := by
  have hempty : (({ q with queue := rest } : Queue).absorb
      (A.body ⟨q.context, q.lockManager⟩)).queue = [] :=
    absorb_queue_of_abort _ _ before after hcalls hafter
  have hnil : (A.body ⟨q.context, q.lockManager⟩).finish = .returned none →
      ∃ q1 w1 err, q.iteration A rest w = some (q1, w1) ∧ q1.queue = [] ∧
        w1.executed = w.executed ++ [(A, err)] ∧ w1.ended = w.ended := fun h =>
    ⟨_, _, none, iteration_ok q A rest w h, hempty, by simp, by simp⟩
  have hfail : ∀ e, q.onError.PushesNothing →
      q.executeSafe A = some (q.absorb (A.body ⟨q.context, q.lockManager⟩), some e) →
      ∃ q1 w1 err, q.iteration A rest w = some (q1, w1) ∧ q1.queue = [] ∧
        w1.executed = w.executed ++ [(A, err)] ∧ w1.ended = w.ended := by
    intro e hH hex
    obtain ⟨q1, w1, h1, h2, h3, _, h5⟩ :=
      handleError_keeps_empty _ e (w.afterAction q A (some e)) hempty
        (by rw [absorb_onError]; exact hH)
    exact ⟨q1, w1, some e, by rw [iteration_fail q A rest w e hex]; exact h1, h2,
      by simp [h3], by simp [h5]⟩
  rcases hturn with h | ⟨hnh, hH⟩
  · exact hnil h
  · cases hf : (A.body ⟨q.context, q.lockManager⟩).finish with
    | returned r =>
      cases r with
      | none => exact hnil hf
      | some e => exact hfail e hH (executeSafe_returned q A (some e) hf)
    | panic v => exact hfail _ hH (executeSafe_panic q A v hf)
    | hang => exact absurd hf hnh

/-- A handler that does not block is called, once, and control comes back. -/
theorem handleError_total (q : Queue) (err : GoError) (w : World)
    (hnh : ∀ fn, q.onError = .handler fn →
      (fn err ⟨q.context, q.lockManager⟩).finish ≠ .hang) :
    ∃ q1 w1, q.handleError err w = some (q1, w1) ∧ w1.handled = w.handled ++ [err] ∧
      w1.executed = w.executed ∧ w1.ended = w.ended := by
  cases hon : q.onError with
  | defaultErrorHandler =>
    obtain ⟨q1, w1, h1, _, h3, h4, h5⟩ := handleError_default_facts q err w hon
    exact ⟨q1, w1, h1, h4, h3, h5⟩
  | handler fn =>
    cases hf : (fn err ⟨q.context, q.lockManager⟩).finish with
    | returned u => exact ⟨_, _, handleError_returned q err w fn hon u hf, rfl, rfl, rfl⟩
    | panic v =>
      exact ⟨_, _, handleError_panic q err w fn hon v hf, by simp [World.log],
        by simp [World.log], by simp [World.log]⟩
    | hang => exact absurd hf (hnh fn hon)

theorem executeSafe_of_failsWith (q : Queue) (a : Action) (err : GoError)
    (h : a.FailsWith ⟨q.context, q.lockManager⟩ err) :
    q.executeSafe a = some (q.absorb (a.body ⟨q.context, q.lockManager⟩), some err) := by
  rcases h with h | ⟨v, h, rfl⟩
  · exact executeSafe_returned q a (some err) h
  · exact executeSafe_panic q a v h

@[simp] theorem abort_name (q : Queue) :
    (Context.Abort (some Queue.Abort) q).name = q.name := rfl

@[simp] theorem abort_logger (q : Queue) :
    (Context.Abort (some Queue.Abort) q).logger = q.logger := rfl

@[simp] theorem abort_queue (q : Queue) :
    (Context.Abort (some Queue.Abort) q).queue = [] := by
  simp [Context.Abort, Queue.Abort]

/-! ## Context data -/

theorem set_get_same (m : GoMap) (key : String) (value : Value) :
    (m.set key value).get key = some value := by
  induction m with
  | nil => simp [GoMap.set, GoMap.get, List.lookup]
  | cons p t ih =>
    obtain ⟨k, v⟩ := p
    by_cases hk : k = key
    · simp [GoMap.set, GoMap.get, List.lookup, hk]
    · have hb : (key == k) = false := by simpa using fun h => hk h.symm
      simp only [GoMap.set, hk, if_false, GoMap.get, List.lookup, hb]
      exact ih

theorem set_get_other (m : GoMap) (key other : String) (value : Value) (h : key ≠ other) :
    (m.set key value).get other = m.get other := by
  induction m with
  | nil =>
    have hb : (other == key) = false := by simpa using fun h2 => h h2.symm
    simp [GoMap.set, GoMap.get, List.lookup, hb]
  | cons p t ih =>
    obtain ⟨k, v⟩ := p
    by_cases hk : k = key
    · subst hk
      have hb : (other == k) = false := by simpa using fun h2 => h h2.symm
      simp [GoMap.set, GoMap.get, List.lookup, hb]
    · by_cases ho : other = k
      · subst ho
        simp [GoMap.set, GoMap.get, List.lookup, hk]
      · have hb : (other == k) = false := by simpa using ho
        simp only [GoMap.set, hk, if_false, GoMap.get, List.lookup, hb]
        exact ih

theorem get_none_of_not_mem (m : GoMap) (key : String) (h : key ∉ m.map Prod.fst) :
    m.get key = none := by
  induction m with
  | nil => rfl
  | cons p t ih =>
    obtain ⟨k, v⟩ := p
    have hk : key ≠ k := fun hk => h (by simp [hk])
    have hb : (key == k) = false := by simpa using hk
    simp only [GoMap.get, List.lookup, hb]
    exact ih (fun ht => h (by simp [ht]))

theorem store_get (c : Context) (k : String) (v : Value) (key : String) :
    (c.store (k, v)).Get key = if k = key then some v else c.Get key := by
  have hdata : (c.store (k, v)).Data = some ((c.Data.getD []).set k v) := by
    unfold Context.store
    split <;> rfl
  unfold Context.Get
  rw [hdata]
  by_cases hk : k = key
  · subst hk
    simp [set_get_same]
  · simp only [hk, if_false]
    rw [set_get_other _ _ _ _ hk]
    cases c.Data <;> rfl

theorem store_logger (c : Context) (k : String) (v : Value) :
    (c.store (k, v)).Logger =
      if k = "logger" then
        match v with
        | .logger l => some l
        | _ => c.Logger
      else c.Logger := by
  by_cases hk : k = "logger"
  · subst hk
    cases v <;> simp [Context.store]
  · have hb : (k == "logger") = false := by simpa using hk
    simp [Context.store, hb, hk]

/-- Reading a key after the entries of a map with distinct keys were stored. -/
theorem foldl_store_get (seed : GoMap) (c : Context) (key : String)
    (hkeys : (seed.map Prod.fst).Nodup) :
    (seed.foldl Context.store c).Get key =
      match seed.get key with
      | some v => some v
      | none => c.Get key := by
  induction seed generalizing c with
  | nil => rfl
  | cons p t ih =>
    obtain ⟨k, v⟩ := p
    have hk : k ∉ t.map Prod.fst := (List.nodup_cons.mp hkeys).1
    have ht : (t.map Prod.fst).Nodup := (List.nodup_cons.mp hkeys).2
    rw [List.foldl_cons, ih _ ht, store_get]
    by_cases hkey : k = key
    · subst hkey
      rw [get_none_of_not_mem t k hk]
      simp [GoMap.get, List.lookup]
    · have hb : (key == k) = false := by simpa using fun h => hkey h.symm
      simp [hkey, GoMap.get, List.lookup, hb]

/-- The `Logger` field after the entries of a map with distinct keys were
stored: the logger under the key "logger", if there is one. -/
theorem foldl_store_logger (seed : GoMap) (c : Context)
    (hkeys : (seed.map Prod.fst).Nodup) :
    (seed.foldl Context.store c).Logger =
      match seed.get "logger" with
      | some (.logger l) => some l
      | _ => c.Logger := by
  induction seed generalizing c with
  | nil => rfl
  | cons p t ih =>
    obtain ⟨k, v⟩ := p
    have hk : k ∉ t.map Prod.fst := (List.nodup_cons.mp hkeys).1
    have ht : (t.map Prod.fst).Nodup := (List.nodup_cons.mp hkeys).2
    rw [List.foldl_cons, ih _ ht, store_logger]
    by_cases hkey : k = "logger"
    · subst hkey
      rw [get_none_of_not_mem t "logger" hk]
      cases v <;> simp [GoMap.get, List.lookup]
    · have hb : ("logger" == k) = false := by simpa using fun h => hkey h.symm
      simp [hkey, GoMap.get, List.lookup, hb]

theorem loggerFromData_eq (c : Context) :
    c.LoggerFromData =
      match c.Get "logger" with
      | some (.logger l) => some l
      | _ => none := by
  unfold Context.LoggerFromData Context.Get
  cases c.Data <;> rfl

/-! ## Calls on the error sinks -/

theorem errorCalls_log (w : World) (l : Logger) (c : LogCall) :
    (w.log l c).errorCalls =
      w.errorCalls ++
        match c with
        | .Error err => [(l, err)]
        | _ => [] := by
  cases c <;> simp [World.log, World.errorCalls, List.filterMap_append]

@[simp] theorem errorCalls_afterAction (w : World) (q : Queue) (a : Action)
    (err : Option GoError) : (w.afterAction q a err).errorCalls = w.errorCalls := by
  simp [World.afterAction, World.log, World.errorCalls, List.filterMap_append]

theorem defaultErrorHandler_errorCalls (err : GoError) (q : Queue) (w : World) :
    (defaultErrorHandler err q w).2.errorCalls =
      w.errorCalls ++
        match q.context.errorLogger with
        | some l => [(l, err)]
        | none => [] := by
  unfold defaultErrorHandler Context.errorLogger
  cases h : (match q.context.Logger with
    | some l => some l
    | none => q.context.LoggerFromData) with
  | none => simp
  | some l => simp [errorCalls_log]

/-- On the context of a new queue initialised from a seed with distinct keys,
the default handler resolves the logger stored under "logger", if any. -/
theorem errorLogger_initialize (seed : GoMap) (hkeys : (seed.map Prod.fst).Nodup) :
    (newContext.Initialize seed).errorLogger =
      match seed.get "logger" with
      | some (.logger l) => some l
      | _ => none := by
  have h1 := foldl_store_logger seed ⟨some [], newContext.Logger⟩ hkeys
  have h2 := foldl_store_get seed ⟨some [], newContext.Logger⟩ "logger" hkeys
  unfold Context.errorLogger
  rw [loggerFromData_eq]
  unfold Context.Initialize
  rw [h1, h2]
  cases hs : seed.get "logger" with
  | none => simp [newContext, Context.Get, GoMap.get]
  | some v => cases v <;> simp [newContext]

/-- Under the default handler, a failing head action ends the loop, and its
error goes to the logger resolved on the context the action left. -/
theorem loop_default_fail (q : Queue) (A : Action) (rest : List Action) (w : World)
    (e : GoError) (f : Nat) (hq : q.queue = A :: rest)
    (hdef : q.onError = .defaultErrorHandler)
    (hA : A.FailsWith ⟨q.context, q.lockManager⟩ e) :
    ∃ q1 w1, Queue.loop (f + 2) q w = some (q1, w1) ∧ q1.queue = [] ∧
      w1.executed = w.executed ++ [(A, some e)] ∧ w1.handled = w.handled ++ [e] ∧
      w1.errorCalls = w.errorCalls ++
        match (A.body ⟨q.context, q.lockManager⟩).env.ctx.errorLogger with
        | some l => [(l, e)]
        | none => [] := by
  have hex := executeSafe_of_failsWith q A e hA
  have hit := iteration_fail q A rest w e hex
  obtain ⟨Q, hQ⟩ : ∃ Q, Q = (({ q with queue := rest } : Queue).absorb
      (A.body ⟨q.context, q.lockManager⟩)) := ⟨_, rfl⟩
  obtain ⟨W, hW⟩ : ∃ W : World, W =
      { w.afterAction q A (some e) with
        handled := (w.afterAction q A (some e)).handled ++ [e] } := ⟨_, rfl⟩
  have hh : Q.handleError e (w.afterAction q A (some e)) =
      some ((defaultErrorHandler e Q W).1, (defaultErrorHandler e Q W).2) := by
    rw [hW]
    exact handleError_default Q e _ (by rw [hQ, absorb_onError]; exact hdef)
  have hit2 : q.iteration A rest w =
      some ((defaultErrorHandler e Q W).1, (defaultErrorHandler e Q W).2) := by
    rw [hit, ← hh, hQ]
  have hloop := (loop_cons (f + 1) q w A rest hq _ _ hit2).trans
    (loop_nil f _ _ (defaultErrorHandler_queue e Q W))
  refine ⟨_, _, hloop, defaultErrorHandler_queue _ _ _, ?_, ?_, ?_⟩
  · simp [World.log, hW]
  · simp [World.log, hW]
  · rw [errorCalls_log, defaultErrorHandler_errorCalls, hQ, absorb_context]
    have hw : W.errorCalls = w.errorCalls := by
      rw [hW]
      simp [World.afterAction, World.log, World.errorCalls, List.filterMap_append]
    rw [hw]
    simp

/-! ## The end callback is not called inside the loop -/

theorem handleError_ended (q : Queue) (err : GoError) (w : World) (q1 : Queue) (w1 : World)
    (h : q.handleError err w = some (q1, w1)) : w1.ended = w.ended := by
  unfold Queue.handleError at h
  cases hon : q.onError with
  | defaultErrorHandler =>
    simp only [hon, Option.some.injEq] at h
    have h2 := congrArg (fun p => p.2.ended) h
    simp only [defaultErrorHandler_ended] at h2
    exact h2.symm
  | handler fn =>
    simp only [hon] at h
    cases hf : (fn err ⟨q.context, q.lockManager⟩).finish with
    | returned u =>
      simp only [hf, Option.some.injEq, Prod.mk.injEq] at h
      rw [← h.2]
    | panic v =>
      simp only [hf, Option.some.injEq, Prod.mk.injEq] at h
      rw [← h.2]
      simp [World.log]
    | hang => simp [hf] at h

theorem iteration_ended (q : Queue) (a : Action) (rest : List Action) (w : World)
    (q1 : Queue) (w1 : World) (h : q.iteration a rest w = some (q1, w1)) :
    w1.ended = w.ended := by
  unfold Queue.iteration at h
  simp only at h
  split at h
  · simp at h
  · simp only [Option.some.injEq, Prod.mk.injEq] at h
    rw [← h.2]
    simp [World.log]
  · have h2 := handleError_ended _ _ _ _ _ h
    rw [h2]
    simp [World.log]

theorem loop_ended (fuel : Nat) (q : Queue) (w : World) (q1 : Queue) (w1 : World)
    (h : Queue.loop fuel q w = some (q1, w1)) : w1.ended = w.ended := by
  induction fuel generalizing q w with
  | zero => simp [Queue.loop] at h
  | succ f ih =>
    unfold Queue.loop at h
    split at h
    · simp only [Option.some.injEq, Prod.mk.injEq] at h
      rw [← h.2]
      simp [World.log]
    · split at h
      · simp at h
      · rename_i q2 w2 hit
        rw [ih _ _ h]
        exact iteration_ended _ _ _ _ _ _ hit

/-! ## The lock registry -/

@[simp] theorem isLocked_unlock_self (m : LockManager) (s : String) :
    (m.Unlock s).IsLocked s = false := by
  simp [LockManager.Unlock, LockManager.IsLocked]

theorem isLocked_unlock_other (m : LockManager) (s t : String) (h : s ≠ t) :
    (m.Unlock s).IsLocked t = m.IsLocked t := by
  have ht : ¬ (t = s) := fun e => h e.symm
  simp [LockManager.Unlock, LockManager.IsLocked, ht]

theorem unlock_cons_of_free (m : LockManager) (s : String) (h : m.IsLocked s = false) :
    (LockManager.mk (s :: m.scopes)).Unlock s = m := by
  have hs : s ∉ m.scopes := by simpa [LockManager.IsLocked] using h
  have hf : m.scopes.filter (fun t => decide (t ≠ s)) = m.scopes := by
    apply List.filter_eq_self.mpr
    intro t ht
    have : t ≠ s := fun e => hs (e ▸ ht)
    simpa using this
  cases m
  simp only [LockManager.Unlock, LockManager.mk.injEq]
  simpa using hf

theorem lock_of_free (m : LockManager) (s : String) (hs : ValidateScope s = none)
    (h : m.IsLocked s = false) : m.Lock s = (⟨s :: m.scopes⟩, none) := by
  simp [LockManager.Lock, hs, h]

theorem lock_of_held (m : LockManager) (s : String) (hs : ValidateScope s = none)
    (h : m.IsLocked s = true) : m.Lock s = (m, some ⟨"scope is already locked"⟩) := by
  simp [LockManager.Lock, hs, h]

/-- A head action that returns nil and leaves a pending list of plain
actions: the run executes the head, then that list, and returns. -/
theorem run_head_then_plain (q : Queue) (A : Action) (rest next : List Action)
    (initial : Option GoMap) (w : World) (fuel : Nat)
    (hq : q.queue = A :: rest)
    (hret : (A.body ⟨(q.initialized initial).context, q.lockManager⟩).finish = .returned none)
    (hnext : (({ q.initialized initial with queue := rest } : Queue).absorb
      (A.body ⟨(q.initialized initial).context, q.lockManager⟩)).queue = next)
    (hplain : ∀ a ∈ next, a.Plain) (hfuel : next.length + 2 ≤ fuel) :
    ∃ q1 w1, q.Run fuel initial w = some (q1, w1) ∧ q1.queue = [] ∧
      w1.executed = w.executed ++ (A :: next).map (fun a => (a, none)) ∧
      w1.handled = w.handled := by
  obtain ⟨f, rfl⟩ : ∃ f, fuel = f + 1 := ⟨fuel - 1, by omega⟩
  have hit := iteration_ok (q.initialized initial) A rest w hret
  obtain ⟨q2, w2, h1, h2, h3, h4, _⟩ :=
    loop_plain next hplain f _ (w.afterAction (q.initialized initial) A none) hnext (by omega)
  refine ⟨q2, { w2 with ended := w2.ended + 1 }, ?_, h2, ?_, ?_⟩
  · apply run_of_loop
    rw [loop_cons f (q.initialized initial) w A rest (by simpa using hq) _ _ hit]
    exact h1
  · simp [h3]
  · simp [h4]

theorem if_body_true (condition : Condition) (branches : Branches) (env : Env)
    (h : (condition env).finish = .returned (true, none)) :
    (Util.If condition branches).body env =
      ⟨(condition env).env, (condition env).calls ++ [.push branches.Then],
        .returned none⟩ := by
  simp [Util.If, h]

theorem if_body_false (condition : Condition) (branches : Branches) (env : Env)
    (h : (condition env).finish = .returned (false, none)) :
    (Util.If condition branches).body env =
      ⟨(condition env).env,
        (condition env).calls ++
          (if branches.Else.length > 0 then [.push branches.Else] else []),
        .returned none⟩ := by
  by_cases hl : branches.Else.length > 0
  · simp [Util.If, h, hl]
  · simp [Util.If, h, hl]

theorem valid_body (validator : Validator) (actions : List Action) (env : Env) (b : Bool)
    (h : (validator env).finish = .returned (b, none)) :
    (Util.Valid validator actions).body env =
      ⟨(validator env).env,
        (validator env).calls ++ (if b then [.push actions] else []),
        .returned none⟩ := by
  cases b <;> simp [Util.Valid, h]

theorem get_of_mem (m : GoMap) (hkeys : (m.map Prod.fst).Nodup) (key : String) (value : Value)
    (h : (key, value) ∈ m) : m.get key = some value := by
  induction m with
  | nil => simp at h
  | cons p t ih =>
    obtain ⟨k, v⟩ := p
    have hk : k ∉ t.map Prod.fst := (List.nodup_cons.mp hkeys).1
    have ht : (t.map Prod.fst).Nodup := (List.nodup_cons.mp hkeys).2
    rcases List.mem_cons.mp h with h1 | h1
    · simp only [Prod.mk.injEq] at h1
      obtain ⟨rfl, rfl⟩ := h1
      simp [GoMap.get, List.lookup]
    · have hne : key ≠ k := by
        intro e
        subst e
        exact hk (List.mem_map.mpr ⟨(key, value), h1, rfl⟩)
      have hb : (key == k) = false := by simpa using hne
      simp only [GoMap.get, List.lookup, hb]
      exact ih ht h1

theorem initialize_get (ctx : Context) (seed : GoMap) (hkeys : (seed.map Prod.fst).Nodup)
    (key : String) : (ctx.Initialize seed).Get key = seed.get key := by
  unfold Context.Initialize
  rw [foldl_store_get seed _ key hkeys]
  cases seed.get key <;> simp [Context.Get, GoMap.get]

/-! ## Names drawn from the counter -/

theorem digitChar_inj : ∀ a < 10, ∀ b < 10, digitChar a = digitChar b → a = b := by
  decide

theorem map_digitChar_inj (l1 l2 : List Nat) (h1 : ∀ d ∈ l1, d < 10) (h2 : ∀ d ∈ l2, d < 10)
    (h : l1.map digitChar = l2.map digitChar) : l1 = l2 := by
  induction l1 generalizing l2 with
  | nil =>
    cases l2 with
    | nil => rfl
    | cons b t => simp at h
  | cons a t ih =>
    cases l2 with
    | nil => simp at h
    | cons b u =>
      simp only [List.map_cons, List.cons.injEq] at h
      have hab := digitChar_inj a (h1 a (by simp)) b (h2 b (by simp)) h.1
      have htu := ih u (fun d hd => h1 d (by simp [hd])) (fun d hd => h2 d (by simp [hd])) h.2
      rw [hab, htu]

/-- Two positive numbers with the same decimal form are equal. -/
theorem formatUint_inj (n m : Nat) (hn : 0 < n) (hm : 0 < m)
    (h : formatUint n = formatUint m) : n = m := by
  have hn0 : n ≠ 0 := by omega
  have hm0 : m ≠ 0 := by omega
  simp only [formatUint, hn0, hm0, if_false] at h
  have hdata := congrArg String.data h
  simp only at hdata
  have hlt : ∀ k : Nat, ∀ d ∈ (Nat.digits 10 k).reverse, d < 10 := by
    intro k d hd
    exact Nat.digits_lt_base (by decide) (List.mem_reverse.mp hd)
  have h2 := map_digitChar_inj _ _ (hlt n) (hlt m) hdata
  exact Nat.digits_inj_iff.mp (List.reverse_injective h2)

theorem queueName_inj (n m : Nat) (hn : 0 < n) (hm : 0 < m)
    (h : "queue-" ++ formatUint n = "queue-" ++ formatUint m) : n = m := by
  apply formatUint_inj n m hn hm
  have h2 := congrArg String.data h
  rw [String.data_append, String.data_append] at h2
  exact String.ext (List.append_cancel_left h2)

theorem queueName_ne_empty (n : Nat) : "queue-" ++ formatUint n ≠ "" := by
  intro h
  have h2 := congrArg String.data h
  rw [String.data_append] at h2
  simp at h2

@[simp] theorem resolveName_empty (runner : QueueRunner) :
    runner.resolveName "" = runner.getName := by
  simp [QueueRunner.resolveName]

theorem resolveName_given (runner : QueueRunner) (name : String) (h : name ≠ "") :
    runner.resolveName name = (name, runner) := by
  simp [QueueRunner.resolveName, h]

@[simp] theorem add_counter (runner : QueueRunner) (actions : List Action)
    (context : Option GoMap) (name : String) :
    (runner.Add actions context name).counter = (runner.resolveName name).2.counter := rfl

@[simp] theorem addEndListener_counter (runner : QueueRunner) (listener : Nat) :
    (runner.AddEndListener listener).counter = runner.counter := rfl

@[simp] theorem onQueueEnd_counter (runner : QueueRunner) (name : String) :
    (runner.onQueueEnd name).1.counter = runner.counter := rfl

theorem mem_setQueue (queues : List (String × Queue)) (name : String) (queue : Queue) :
    (name, queue) ∈ setQueue queues name queue := by
  induction queues with
  | nil => simp [setQueue]
  | cons p t ih =>
    obtain ⟨k, v⟩ := p
    by_cases hk : k = name
    · simp [setQueue, hk]
    · simp [setQueue, hk, ih]

/-- While the counter does not wrap, the calls of `Add` with the empty name
draw the numbers that follow the counter, one after the other. -/
theorem autoAssigned_eq (events : List RunnerEvent) (runner : QueueRunner)
    (h : runner.counter + events.countP RunnerEvent.isAuto < 2 ^ 64) :
    autoAssigned runner events =
      (List.range' (runner.counter + 1) (events.countP RunnerEvent.isAuto)).map
        (fun n => (n, "queue-" ++ formatUint n)) := by
  induction events generalizing runner with
  | nil => rfl
  | cons ev rest ih =>
    cases ev with
    | add actions context name =>
      by_cases hn : name = ""
      · subst hn
        have hc : (List.countP RunnerEvent.isAuto (RunnerEvent.add actions context "" :: rest)) =
            List.countP RunnerEvent.isAuto rest + 1 := by
          simp [List.countP_cons, RunnerEvent.isAuto]
        rw [hc] at h ⊢
        have hlt : runner.counter + 1 < 18446744073709551616 := by
          have h64 : (2 : Nat) ^ 64 = 18446744073709551616 := by norm_num
          omega
        have hmod : (runner.counter + 1) % 18446744073709551616 = runner.counter + 1 :=
          Nat.mod_eq_of_lt hlt
        have hcount : (runner.Add actions context "").counter = runner.counter + 1 := by
          simp [QueueRunner.getName, hmod]
        have ih2 := ih (runner.Add actions context "") (by rw [hcount]; omega)
        rw [hcount] at ih2
        simp only [autoAssigned, if_true, ih2, List.range'_succ, List.map_cons]
        simp [QueueRunner.getName, hmod]
      · have hc : (List.countP RunnerEvent.isAuto (RunnerEvent.add actions context name :: rest)) =
            List.countP RunnerEvent.isAuto rest := by
          simp [List.countP_cons, RunnerEvent.isAuto, hn]
        rw [hc] at h ⊢
        have hcount : (runner.Add actions context name).counter = runner.counter := by
          simp [resolveName_given runner name hn]
        have ih2 := ih (runner.Add actions context name) (by rw [hcount]; exact h)
        rw [hcount] at ih2
        simp only [autoAssigned, hn, if_false, ih2]
    | addEndListener listener =>
      have hc : (List.countP RunnerEvent.isAuto (RunnerEvent.addEndListener listener :: rest)) =
          List.countP RunnerEvent.isAuto rest := by
        simp [List.countP_cons, RunnerEvent.isAuto]
      rw [hc] at h ⊢
      exact ih (runner.AddEndListener listener) h
    | queueEnd name =>
      have hc : (List.countP RunnerEvent.isAuto (RunnerEvent.queueEnd name :: rest)) =
          List.countP RunnerEvent.isAuto rest := by
        simp [List.countP_cons, RunnerEvent.isAuto]
      rw [hc] at h ⊢
      exact ih (runner.onQueueEnd name).1 h

/-! ## The live mapping of a runner -/

theorem keys_setQueue_of_not_mem (queues : List (String × Queue)) (name : String)
    (queue : Queue) (h : name ∉ queues.map Prod.fst) :
    (setQueue queues name queue).map Prod.fst = queues.map Prod.fst ++ [name] := by
  induction queues with
  | nil => rfl
  | cons p t ih =>
    obtain ⟨k, v⟩ := p
    have hk : k ≠ name := fun e => h (by simp [e])
    have ht : name ∉ t.map Prod.fst := fun hm => h (by simp [hm])
    simp [setQueue, hk, ih ht]

theorem keys_deleteQueue (queues : List (String × Queue)) (name : String) :
    (deleteQueue queues name).map Prod.fst =
      (queues.map Prod.fst).filter (fun k => k != name) := by
  induction queues with
  | nil => rfl
  | cons p t ih =>
    obtain ⟨k, v⟩ := p
    by_cases hk : k = name
    · have ih2 : List.map Prod.fst (deleteQueue t name) =
          List.filter (fun k => k != name) (List.map Prod.fst t) := ih
      simpa [deleteQueue, hk] using ih2
    · have ih2 : List.map Prod.fst (deleteQueue t name) =
          List.filter (fun k => k != name) (List.map Prod.fst t) := ih
      simpa [deleteQueue, hk] using ih2

theorem tracked_init (opts : RunnerOpts) : (RunnerState.init opts).Tracked :=
  ⟨List.Perm.nil, List.nodup_nil⟩

theorem tracked_step (st : RunnerState) (ev : RunnerEvent) (hinv : st.Tracked)
    (hfresh : st.Fresh ev) : (st.step ev).Tracked := by
  obtain ⟨hperm, hnodup⟩ := hinv
  cases ev with
  | add actions context name =>
    have hnew : (st.runner.resolveName name).1 ∉ st.live := hfresh
    have hkey : (st.runner.resolveName name).1 ∉ (st.runner.resolveName name).2.queues.map
        Prod.fst := by
      have hq : (st.runner.resolveName name).2.queues = st.runner.queues := by
        unfold QueueRunner.resolveName QueueRunner.getName
        split <;> rfl
      rw [hq]
      exact fun hm => hnew (hperm.mem_iff.mp hm)
    have hq : (st.runner.resolveName name).2.queues = st.runner.queues := by
      unfold QueueRunner.resolveName QueueRunner.getName
      split <;> rfl
    refine ⟨?_, List.nodup_cons.mpr ⟨hnew, hnodup⟩⟩
    show (List.map Prod.fst (setQueue (st.runner.resolveName name).2.queues
      (st.runner.resolveName name).1 _)).Perm ((st.runner.resolveName name).1 :: st.live)
    rw [keys_setQueue_of_not_mem _ _ _ hkey, hq]
    exact (List.perm_append_singleton _ _).trans (List.Perm.cons _ hperm)
  | addEndListener listener => exact ⟨hperm, hnodup⟩
  | queueEnd name =>
    refine ⟨?_, hnodup.erase name⟩
    show (List.map Prod.fst (deleteQueue st.runner.queues name)).Perm (st.live.erase name)
    rw [keys_deleteQueue, hnodup.erase_eq_filter name]
    exact hperm.filter _

theorem tracked_run (events : List RunnerEvent) (st : RunnerState) (hinv : st.Tracked)
    (hdist : st.DistinctNames events) : (st.run events).Tracked := by
  induction events generalizing st with
  | nil => exact hinv
  | cons ev rest ih =>
    exact ih (st.step ev) (tracked_step st ev hinv hdist.1) hdist.2

theorem extend_get (ctx : Context) (values : GoMap) (hkeys : (values.map Prod.fst).Nodup)
    (key : String) :
    (ctx.Extend values).Get key =
      match values.get key with
      | some v => some v
      | none => ctx.Get key := by
  unfold Context.Extend
  rw [foldl_store_get values _ key hkeys]
  have hbase : (⟨some (ctx.Data.getD []), ctx.Logger⟩ : Context).Get key = ctx.Get key := by
    unfold Context.Get
    cases ctx.Data <;> rfl
  rw [hbase]

theorem isLocked_lock_other (m : LockManager) (s t : String) (h : s ≠ t) :
    (m.Lock s).1.IsLocked t = m.IsLocked t := by
  have ht : ¬ (t = s) := fun e => h e.symm
  unfold LockManager.Lock
  split
  · rfl
  · split
    · rfl
    · simp [LockManager.IsLocked, ht]

/-- After an `Abort` followed by one `Push`, the pending list is the pushed
batch. -/
theorem absorb_queue_of_abort_push {ρ : Type} (q : Queue) (r : Effect Action ρ)
    (before : List (QueueCall Action)) (P : List Action)
    (h : r.calls = before ++ [.abort, .push P]) : (q.absorb r).queue = P := by
  unfold Queue.absorb
  rw [h, List.foldl_append]
  simp

theorem isLocked_runWithLock_other (s t : String) (hne : s ≠ t)
    (fn : Env → Effect Action (Option GoError)) (env : Env)
    (hbody : ∀ e, (fn e).env.locks.IsLocked t = e.locks.IsLocked t) :
    (LockManager.RunWithLock s fn env).env.locks.IsLocked t = env.locks.IsLocked t := by
  have ht : ¬ (t = s) := fun e => hne e.symm
  have hin : (fn { env with locks := ⟨s :: env.locks.scopes⟩ }).env.locks.IsLocked t =
      env.locks.IsLocked t := by
    rw [hbody]
    simp [LockManager.IsLocked, ht]
  unfold LockManager.RunWithLock
  split
  · rfl
  · split
    · rfl
    · simp only
      split
      · simp only
        rw [isLocked_unlock_other _ s t hne]
        exact hin
      · exact hin
      · exact hin

/-! ## Runs followed state by state -/

theorem absorb_env {ρ : Type} (q : Queue) (r : Effect Action ρ) :
    (⟨(q.absorb r).context, (q.absorb r).lockManager⟩ : Env) = r.env := by
  rw [absorb_context, absorb_lockManager]

theorem failsWith_iff_failure (a : Action) (env : Env) (e : GoError) :
    a.FailsWith env e ↔ a.failure env = some e := by
  unfold Action.FailsWith Action.failure
  cases hf : (a.body env).finish with
  | returned r => cases r <;> simp
  | panic v => simp
  | hang => simp

theorem failure_none_iff (a : Action) (env : Env) (hnh : (a.body env).finish ≠ .hang) :
    a.failure env = none ↔ (a.body env).finish = .returned none := by
  unfold Action.failure
  cases hf : (a.body env).finish with
  | returned r => cases r <;> simp
  | panic v => simp
  | hang => exact absurd hf hnh

/-- A list of quiet actions either succeeds to its end or has a first action
that fails. -/
theorem quiet_cases (as : List Action) (hquiet : ∀ a ∈ as, a.Quiet) (env : Env) :
    SucceedFrom as env ∨
      ∃ pre f post e, as = pre ++ f :: post ∧ SucceedFrom pre env ∧
        f.FailsWith (envAfter pre env) e := by
  induction as generalizing env with
  | nil => exact Or.inl trivial
  | cons a as ih =>
    obtain ⟨hcalls, hnh⟩ := hquiet a (by simp) env
    cases hf : a.failure env with
    | none =>
      have hfin := (failure_none_iff a env hnh).1 hf
      rcases ih (fun b hb => hquiet b (by simp [hb])) (a.body env).env with h | h
      · exact Or.inl ⟨hcalls, hfin, h⟩
      · obtain ⟨pre, f, post, e, hsplit, hpre, hfail⟩ := h
        exact Or.inr ⟨a :: pre, f, post, e, by simp [hsplit], ⟨hcalls, hfin, hpre⟩, hfail⟩
    | some e =>
      exact Or.inr ⟨[], a, as, e, rfl, trivial, (failsWith_iff_failure a env e).2 hf⟩

/-- A pending list whose actions succeed one after the other is executed
front to back; neither the handler nor an error sink is called. -/
theorem loop_succeed (as : List Action) (fuel : Nat) (q : Queue) (w : World)
    (hq : q.queue = as) (hs : SucceedFrom as ⟨q.context, q.lockManager⟩)
    (hfuel : as.length + 1 ≤ fuel) :
    ∃ q1 w1, Queue.loop fuel q w = some (q1, w1) ∧ q1.queue = [] ∧
      w1.executed = w.executed ++ as.map (fun a => (a, none)) ∧
      w1.handled = w.handled ∧ w1.errorCalls = w.errorCalls := by
  induction as generalizing fuel q w with
  | nil =>
    obtain ⟨f, rfl⟩ : ∃ f, fuel = f + 1 := ⟨fuel - 1, by simp at hfuel; omega⟩
    exact ⟨q, _, loop_nil f q w hq, hq, by simp [World.log], rfl, by simp [errorCalls_log]⟩
  | cons a as ih =>
    obtain ⟨f, rfl⟩ : ∃ f, fuel = f + 1 := ⟨fuel - 1, by simp at hfuel; omega⟩
    obtain ⟨hcalls, hfin, hrest⟩ := hs
    have hit := iteration_ok q a as w hfin
    have hq1 : (({ q with queue := as } : Queue).absorb
        (a.body ⟨q.context, q.lockManager⟩)).queue = as :=
      absorb_queue_of_no_calls _ _ hcalls
    obtain ⟨q2, w2, h1, h2, h3, h4, h5⟩ :=
      ih f _ (w.afterAction q a none) hq1 (by rw [absorb_env]; exact hrest)
        (by simp at hfuel; omega)
    refine ⟨q2, w2, ?_, h2, by simp [h3], by simp [h4], by simp [h5]⟩
    rw [loop_cons f q w a as hq _ _ hit]
    exact h1

/-- Under the default handler, actions that succeed one after the other,
followed by an action that fails: the loop ends after the failure, and the
error goes to the logger resolved on the context the failing action left. -/
theorem loop_default_after (pre : List Action) (A : Action) (rest : List Action)
    (e : GoError) (fuel : Nat) (q : Queue) (w : World)
    (hq : q.queue = pre ++ A :: rest) (hdef : q.onError = .defaultErrorHandler)
    (hpre : SucceedFrom pre ⟨q.context, q.lockManager⟩)
    (hA : A.FailsWith (envAfter pre ⟨q.context, q.lockManager⟩) e)
    (hfuel : pre.length + 2 ≤ fuel) :
    ∃ q1 w1, Queue.loop fuel q w = some (q1, w1) ∧ q1.queue = [] ∧
      w1.executed = w.executed ++ pre.map (fun a => (a, none)) ++ [(A, some e)] ∧
      w1.handled = w.handled ++ [e] ∧
      w1.errorCalls = w.errorCalls ++
        match (A.body (envAfter pre ⟨q.context, q.lockManager⟩)).env.ctx.errorLogger with
        | some l => [(l, e)]
        | none => [] := by
  induction pre generalizing fuel q w with
  | nil =>
    obtain ⟨f, rfl⟩ : ∃ f, fuel = f + 2 := ⟨fuel - 2, by simp at hfuel; omega⟩
    obtain ⟨q1, w1, h1, h2, h3, h4, h5⟩ :=
      loop_default_fail q A rest w e f (by simpa using hq) hdef hA
    exact ⟨q1, w1, h1, h2, by simp [h3], h4, h5⟩
  | cons a pre ih =>
    obtain ⟨f, rfl⟩ : ∃ f, fuel = f + 1 := ⟨fuel - 1, by simp at hfuel; omega⟩
    obtain ⟨hcalls, hfin, hrest⟩ := hpre
    have hit := iteration_ok q a (pre ++ A :: rest) w hfin
    have hq1 : (({ q with queue := pre ++ A :: rest } : Queue).absorb
        (a.body ⟨q.context, q.lockManager⟩)).queue = pre ++ A :: rest :=
      absorb_queue_of_no_calls _ _ hcalls
    obtain ⟨q2, w2, h1, h2, h3, h4, h5⟩ :=
      ih f _ (w.afterAction q a none) hq1 (by rw [absorb_onError]; exact hdef)
        (by rw [absorb_env]; exact hrest) (by rw [absorb_env]; exact hA)
        (by simp at hfuel; omega)
    refine ⟨q2, w2, ?_, h2, by simp [h3], by simp [h4], ?_⟩
    · rw [loop_cons f q w a (pre ++ A :: rest) (by simpa using hq) _ _ hit]
      exact h1
    · rw [h5, absorb_env]
      simp [envAfter]

/-- The logger the default handler resolves, read off the context's field
`Logger` and its entry "logger". -/
theorem errorLogger_cases (ctx : Context) (e : GoError) :
    (match ctx.errorLogger with
      | some l => [(l, e)]
      | none => []) =
      match ctx.Logger, ctx.Get "logger" with
      | some l, _ => [(l, e)]
      | none, some (.logger l) => [(l, e)]
      | none, _ => [] := by
  unfold Context.errorLogger
  rw [loggerFromData_eq]
  cases ctx.Logger with
  | some l => rfl
  | none =>
    cases ctx.Get "logger" with
    | none => rfl
    | some v => cases v <;> rfl

/-- Actions that keep the context's logger, run in turn, keep it. -/
theorem envAfter_errorLogger (pre : List Action) (hkeep : ∀ a ∈ pre, a.KeepsLogger)
    (env : Env) : (envAfter pre env).ctx.errorLogger = env.ctx.errorLogger := by
  induction pre generalizing env with
  | nil => rfl
  | cons a pre ih =>
    rw [envAfter, ih (fun b hb => hkeep b (by simp [hb])), hkeep a (by simp)]

theorem everyActionOnce_fst (fn : ErrorHandler) (as : List Action) (env : Env) :
    (everyActionOnce fn as env).map Prod.fst = as := by
  induction as generalizing env with
  | nil => rfl
  | cons a as ih =>
    unfold everyActionOnce
    cases a.failure env <;> simp [ih]

/-- Under a handler that swallows, a pending list of quiet actions is
executed to its end, each action in the state its predecessor (and, behind
a failure, the handler) left, and the handler gets the failure of each
failing action. -/
theorem loop_swallow_each (as : List Action) (hquiet : ∀ a ∈ as, a.Quiet)
    (fn : ErrorHandler) (hfn : Swallows fn) (fuel : Nat) (q : Queue) (w : World)
    (hq : q.queue = as) (hon : q.onError = .handler fn) (hfuel : as.length + 1 ≤ fuel) :
    ∃ q1 w1, Queue.loop fuel q w = some (q1, w1) ∧ q1.queue = [] ∧
      w1.executed = w.executed ++ everyActionOnce fn as ⟨q.context, q.lockManager⟩ ∧
      w1.handled = w.handled ++
        (everyActionOnce fn as ⟨q.context, q.lockManager⟩).filterMap Prod.snd ∧
      w1.errorCalls = w.errorCalls := by
  induction as generalizing fuel q w with
  | nil =>
    obtain ⟨f, rfl⟩ : ∃ f, fuel = f + 1 := ⟨fuel - 1, by simp at hfuel; omega⟩
    exact ⟨q, _, loop_nil f q w hq, hq, by simp [World.log, everyActionOnce],
      by simp [World.log, everyActionOnce], by simp [errorCalls_log]⟩
  | cons a as ih =>
    obtain ⟨f, rfl⟩ : ∃ f, fuel = f + 1 := ⟨fuel - 1, by simp at hfuel; omega⟩
    obtain ⟨hcalls, hnh⟩ := hquiet a (by simp) ⟨q.context, q.lockManager⟩
    have hq1 : (({ q with queue := as } : Queue).absorb
        (a.body ⟨q.context, q.lockManager⟩)).queue = as :=
      absorb_queue_of_no_calls _ _ hcalls
    cases hf : a.failure ⟨q.context, q.lockManager⟩ with
    | none =>
      have hfin := (failure_none_iff a _ hnh).1 hf
      have hit := iteration_ok q a as w hfin
      obtain ⟨q2, w2, h1, h2, h3, h4, h5⟩ :=
        ih (fun b hb => hquiet b (by simp [hb])) f _ (w.afterAction q a none) hq1
          (by rw [absorb_onError]; exact hon) (by simp at hfuel; omega)
      rw [absorb_env] at h3 h4
      refine ⟨q2, w2, ?_, h2, by simp [h3, everyActionOnce, hf],
        by simp [h4, everyActionOnce, hf], by simp [h5]⟩
      rw [loop_cons f q w a as hq _ _ hit]
      exact h1
    | some e =>
      have hex := executeSafe_of_failsWith q a e ((failsWith_iff_failure a _ e).2 hf)
      have hit := iteration_fail q a as w e hex
      obtain ⟨hc, hr⟩ := hfn e ⟨(({ q with queue := as } : Queue).absorb
        (a.body ⟨q.context, q.lockManager⟩)).context, (({ q with queue := as } : Queue).absorb
        (a.body ⟨q.context, q.lockManager⟩)).lockManager⟩
      have hh := handleError_returned (({ q with queue := as } : Queue).absorb
        (a.body ⟨q.context, q.lockManager⟩)) e (w.afterAction q a (some e)) fn
        (by rw [absorb_onError]; exact hon) () hr
      obtain ⟨q2, w2, h1, h2, h3, h4, h5⟩ :=
        ih (fun b hb => hquiet b (by simp [hb])) f _
          ({ w.afterAction q a (some e) with
            handled := (w.afterAction q a (some e)).handled ++ [e] } : World)
          ((absorb_queue_of_no_calls _ _ hc).trans hq1)
          (by rw [absorb_onError, absorb_onError]; exact hon) (by simp at hfuel; omega)
      rw [absorb_env, absorb_env] at h3 h4
      refine ⟨q2, w2, ?_, h2, by simp [h3, everyActionOnce, hf],
        by simp [h4, everyActionOnce, hf], ?_⟩
      · rw [loop_cons f q w a as hq _ _ (hit.trans hh)]
        exact h1
      · rw [h5]
        simp [World.errorCalls, World.afterAction, World.log, List.filterMap_append]

/-! ## The claims -/

/-- C1. When `Run` executes a head action `A` that calls `ctx.Push(P)` once
and returns nil, and the actions of `P` and of the rest of the pending list
neither fail, push nor abort, then `Run` returns and has executed `A`, then
the actions of `P` in their order, then the rest in its order (every one of
them without error). -/
theorem push_batch_runs_before_rest (q : Queue) (A : Action) (P rest : List Action)
    (initial : Option GoMap) (w : World) (fuel : Nat)
    (hq : q.queue = A :: rest)
    (hcalls : (A.body ⟨(q.initialized initial).context, q.lockManager⟩).calls = [.push P])
    (hret : (A.body ⟨(q.initialized initial).context, q.lockManager⟩).finish = .returned none)
    (hP : ∀ a ∈ P, a.Plain) (hrest : ∀ a ∈ rest, a.Plain)
    (hfuel : P.length + rest.length + 2 ≤ fuel) :
    ∃ q1 w1, q.Run fuel initial w = some (q1, w1) ∧ q1.queue = [] ∧
      w1.executed = w.executed ++ (A :: (P ++ rest)).map (fun a => (a, none)) := by
  obtain ⟨f, rfl⟩ : ∃ f, fuel = f + 1 := ⟨fuel - 1, by omega⟩
  have hit := iteration_ok (q.initialized initial) A rest w hret
  have hq1 : (({ q.initialized initial with queue := rest } : Queue).absorb
      (A.body ⟨(q.initialized initial).context, (q.initialized initial).lockManager⟩)).queue
      = P ++ rest :=
    absorb_queue_of_push _ _ P hcalls
  have hall : ∀ a ∈ P ++ rest, a.Plain := by
    intro a ha
    rcases List.mem_append.mp ha with h | h
    · exact hP a h
    · exact hrest a h
  obtain ⟨q2, w2, h1, h2, h3, _, _⟩ :=
    loop_plain (P ++ rest) hall f _ (w.afterAction (q.initialized initial) A none) hq1
      (by simp; omega)
  refine ⟨q2, { w2 with ended := w2.ended + 1 }, ?_, h2, ?_⟩
  · apply run_of_loop
    rw [loop_cons f (q.initialized initial) w A rest (by simpa using hq) _ _ hit]
    exact h1
  · simp [h3]

/-- C1, on the queue `[A, B, C]` whose `A` pushes `[X, Y]`: the run executes
`A, X, Y, B, C`. -/
theorem push_batch_runs_before_rest_witness :
    ∃ q1 w1,
      (NewQueue ⟨[.pushing "A" [.noop "X", .noop "Y"], .noop "B", .noop "C"], "Q",
          none, none, none⟩).Run 6 (some []) World.init = some (q1, w1) ∧
      q1.queue = [] ∧
      w1.executed = World.init.executed ++
        (Action.pushing "A" [.noop "X", .noop "Y"] ::
          ([.noop "X", .noop "Y"] ++ [.noop "B", .noop "C"])).map (fun a => (a, none)) :=
  push_batch_runs_before_rest
    (NewQueue ⟨[.pushing "A" [.noop "X", .noop "Y"], .noop "B", .noop "C"], "Q",
      none, none, none⟩)
    (.pushing "A" [.noop "X", .noop "Y"]) [.noop "X", .noop "Y"] [.noop "B", .noop "C"]
    (some []) World.init 6 rfl rfl rfl
    (by intro a ha; simp at ha; rcases ha with rfl | rfl <;> exact noop_plain _)
    (by intro a ha; simp at ha; rcases ha with rfl | rfl <;> exact noop_plain _)
    (by decide)

/-- C2. When the executing action `A` calls `ctx.Abort()` and nothing is
pushed after that call (the action returns nil, or its failure goes to a
handler that pushes nothing), `A` is still executed to its end, the pending
list is empty after it, `Run` stops at the next loop test, and `A` is the
only action executed: none of the actions pending behind it runs. -/
theorem abort_discards_pending (q : Queue) (A : Action) (rest : List Action)
    (initial : Option GoMap) (w : World) (fuel : Nat)
    (before after : List (QueueCall Action))
    (hq : q.queue = A :: rest)
    (hcalls : (A.body ⟨(q.initialized initial).context, q.lockManager⟩).calls =
      before ++ .abort :: after)
    (hafter : ∀ c ∈ after, c.isAbort = true)
    (hturn : (A.body ⟨(q.initialized initial).context, q.lockManager⟩).finish =
        .returned none ∨
      ((A.body ⟨(q.initialized initial).context, q.lockManager⟩).finish ≠ .hang ∧
        q.onError.PushesNothing))
    (hfuel : 2 ≤ fuel) :
    ∃ q1 w1 err, q.Run fuel initial w = some (q1, w1) ∧ q1.queue = [] ∧
      w1.executed = w.executed ++ [(A, err)] ∧ w1.ended = w.ended + 1 := by
  obtain ⟨f, rfl⟩ : ∃ f, fuel = f + 2 := ⟨fuel - 2, by omega⟩
  obtain ⟨q1, w1, err, hit, hempty, hex, hend⟩ :=
    iteration_after_abort (q.initialized initial) A rest w before after hcalls hafter hturn
  have hloop : Queue.loop (f + 2) (q.initialized initial) w =
      some (q1, w1.log q1.logger (.Info ("Queue(" ++ q1.name ++ "): stopped"))) := by
    rw [loop_cons (f + 1) (q.initialized initial) w A rest (by simpa using hq) q1 w1 hit]
    exact loop_nil f q1 w1 hempty
  refine ⟨q1, _, err, run_of_loop _ _ _ _ _ _ hloop, hempty, ?_, ?_⟩
  · simp [World.log, hex]
  · simp [World.log, hend]

/-- C2, on the queue `[A, B]` whose `A` calls `Abort`: the run executes
only `A`. -/
theorem abort_discards_pending_witness :
    ∃ q1 w1 err,
      (NewQueue ⟨[.aborting "A", .noop "B"], "Q", none, none, none⟩).Run 2 (some [])
        World.init = some (q1, w1) ∧
      q1.queue = [] ∧ w1.executed = World.init.executed ++ [(Action.aborting "A", err)] ∧
      w1.ended = World.init.ended + 1 :=
  abort_discards_pending (NewQueue ⟨[.aborting "A", .noop "B"], "Q", none, none, none⟩)
    (.aborting "A") [.noop "B"] (some []) World.init 2 [] [] rfl rfl (by simp)
    (Or.inl rfl) (by decide)

/-- C3. A queue without a custom error handler, whose actions never call
`Push` or `Abort`, run with any seed: `Run` returns, the end callback has been
called, and nothing is left pending. When every action returns nil, each in
the state its predecessor left, the whole list has been executed in its
order and the handler was not called. When `pre` are the actions that
returned nil and `f`, next in line, fails with `e` in the state they left,
the executed actions are exactly `pre` in their order, every one without
error, then `f` with the error `e`; the handler got `e` once, and none of
the actions behind `f` was executed. One of the two cases always applies. -/
theorem default_handler_stops_at_first_failure (q : Queue) (initial : Option GoMap)
    (w : World) (fuel : Nat)
    (hdef : q.onError = .defaultErrorHandler)
    (hquiet : ∀ a ∈ q.queue, a.Quiet)
    (hfuel : q.queue.length + 1 ≤ fuel) :
    ∃ q1 w1, q.Run fuel initial w = some (q1, w1) ∧ w1.ended = w.ended + 1 ∧
      q1.queue = [] ∧
      (SucceedFrom q.queue ⟨(q.initialized initial).context, q.lockManager⟩ →
        w1.executed = w.executed ++ q.queue.map (fun a => (a, none)) ∧
        w1.handled = w.handled) ∧
      (∀ pre f post e, q.queue = pre ++ f :: post →
        SucceedFrom pre ⟨(q.initialized initial).context, q.lockManager⟩ →
        f.FailsWith (envAfter pre ⟨(q.initialized initial).context, q.lockManager⟩) e →
        w1.executed = w.executed ++ pre.map (fun a => (a, none)) ++ [(f, some e)] ∧
        w1.handled = w.handled ++ [e]) ∧
      (SucceedFrom q.queue ⟨(q.initialized initial).context, q.lockManager⟩ ∨
        ∃ pre f post e, q.queue = pre ++ f :: post ∧
          SucceedFrom pre ⟨(q.initialized initial).context, q.lockManager⟩ ∧
          f.FailsWith (envAfter pre ⟨(q.initialized initial).context, q.lockManager⟩) e) := by
  have hcases := quiet_cases q.queue hquiet ⟨(q.initialized initial).context, q.lockManager⟩
  obtain ⟨Q, W, hloop, hempty⟩ : ∃ Q W,
      Queue.loop fuel (q.initialized initial) w = some (Q, W) ∧ Q.queue = [] := by
    rcases hcases with h | ⟨pre, f, post, e, hsplit, hpre, hf⟩
    · obtain ⟨q1, w1, h1, h2, _⟩ :=
        loop_succeed q.queue fuel (q.initialized initial) w rfl h hfuel
      exact ⟨q1, w1, h1, h2⟩
    · obtain ⟨q1, w1, h1, h2, _⟩ :=
        loop_default_after pre f post e fuel (q.initialized initial) w hsplit hdef hpre hf
          (by rw [hsplit] at hfuel; simp at hfuel; omega)
      exact ⟨q1, w1, h1, h2⟩
  refine ⟨Q, _, run_of_loop _ _ _ _ _ _ hloop, ?_, hempty, ?_, ?_, hcases⟩
  · simp [loop_ended _ _ _ _ _ hloop]
  · intro h
    obtain ⟨q1, w1, h1, _, h3, h4, _⟩ :=
      loop_succeed q.queue fuel (q.initialized initial) w rfl h hfuel
    rw [hloop] at h1
    obtain ⟨rfl, rfl⟩ : Q = q1 ∧ W = w1 := by simpa using h1
    exact ⟨h3, h4⟩
  · intro pre f post e hsplit hpre hf
    obtain ⟨q1, w1, h1, _, h3, h4, _⟩ :=
      loop_default_after pre f post e fuel (q.initialized initial) w hsplit hdef hpre hf
        (by rw [hsplit] at hfuel; simp at hfuel; omega)
    rw [hloop] at h1
    obtain ⟨rfl, rfl⟩ : Q = q1 ∧ W = w1 := by simpa using h1
    exact ⟨h3, h4⟩

/-- C3, on the queue `[A, B]` whose `A` fails: the run returns, the end
callback has been called once, `A` is the only action executed, and the
handler got the error of `A`. -/
theorem default_handler_stops_at_first_failure_witness :
    ∃ q1 w1,
      (NewQueue ⟨[.failing "A" ErrInvalidScope, .noop "B"], "Q", none, none, none⟩).Run 3
        (some [("logger", .logger .std)]) World.init = some (q1, w1) ∧
      w1.ended = 1 ∧ q1.queue = [] ∧
      w1.executed = [(Action.failing "A" ErrInvalidScope, some ErrInvalidScope)] ∧
      w1.handled = [ErrInvalidScope] := by
  obtain ⟨q1, w1, h1, h2, h3, _, h5, _⟩ :=
    default_handler_stops_at_first_failure
      (NewQueue ⟨[.failing "A" ErrInvalidScope, .noop "B"], "Q", none, none, none⟩)
      (some [("logger", .logger .std)]) World.init 3 rfl
      (by
        intro a ha
        have ha2 : a = .failing "A" ErrInvalidScope ∨ a = .noop "B" := by
          simpa [NewQueue] using ha
        rcases ha2 with rfl | rfl
        · exact failing_quiet _ _
        · exact noop_quiet _)
      (by decide)
  obtain ⟨h6, h7⟩ :=
    h5 [] (.failing "A" ErrInvalidScope) [.noop "B"] ErrInvalidScope rfl trivial (Or.inl rfl)
  exact ⟨q1, w1, h1, h2, h3, h6, h7⟩

/-- C5. Whenever a call of `Run` returns, the end callback has been called
exactly once during that call, however the loop was left: drained, aborted
by an action or by the error handler, or after a contained panic. -/
theorem end_callback_fires_once (fuel : Nat) (q : Queue) (initial : Option GoMap)
    (w : World) (q1 : Queue) (w1 : World)
    (h : q.Run fuel initial w = some (q1, w1)) : w1.ended = w.ended + 1 := by
  unfold Queue.Run at h
  split at h
  · simp at h
  · rename_i q2 w2 hloop
    simp only [Option.some.injEq, Prod.mk.injEq] at h
    rw [← h.2]
    simp [loop_ended _ _ _ _ _ hloop]

/-- C5, on the queue `[A, B]` whose `A` panics: the run returns and the end
callback has been called once. -/
theorem end_callback_fires_once_witness :
    ∃ h : ((NewQueue ⟨[.panicking "A" (.str "boom"), .noop "B"], "Q", none, none,
        none⟩).Run 2 none World.init).isSome = true,
      (((NewQueue ⟨[.panicking "A" (.str "boom"), .noop "B"], "Q", none, none,
        none⟩).Run 2 none World.init).get h).2.ended = World.init.ended + 1 := by
  have hs : ((NewQueue ⟨[.panicking "A" (.str "boom"), .noop "B"], "Q", none, none,
      none⟩).Run 2 none World.init).isSome = true := rfl
  exact ⟨hs, end_callback_fires_once 2
    (NewQueue ⟨[.panicking "A" (.str "boom"), .noop "B"], "Q", none, none, none⟩) none
    World.init _ _ (Option.some_get hs).symm⟩

/-- C6. An action that panics with the value `v` while `Run` executes it:
`executeSafe` turns the panic into an ordinary failure whose error is `v`
itself when `v` is an error and otherwise an error whose message is the
default formatting of `v`; the configured error handler (which does not
block) is called exactly once, with that error, and the loop pass returns;
under the default handler `Run` itself returns, after that one action. -/
theorem panic_becomes_failure (q : Queue) (A : Action) (rest : List Action)
    (initial : Option GoMap) (w : World) (v : PanicValue)
    (hq : q.queue = A :: rest)
    (hv : (A.body ⟨(q.initialized initial).context, q.lockManager⟩).finish = .panic v)
    (hnh : ∀ fn, q.onError = .handler fn →
      (fn (recoveredError v)
        (A.body ⟨(q.initialized initial).context, q.lockManager⟩).env).finish ≠ .hang) :
    (∀ e, v = .error e → recoveredError v = e) ∧
    ((∀ e, v ≠ .error e) → (recoveredError v).message = v.format) ∧
    (q.initialized initial).executeSafe A =
      some ((q.initialized initial).absorb
        (A.body ⟨(q.initialized initial).context, q.lockManager⟩),
        some (recoveredError v)) ∧
    (∃ q1 w1, (q.initialized initial).iteration A rest w = some (q1, w1) ∧
      w1.handled = w.handled ++ [recoveredError v] ∧
      w1.executed = w.executed ++ [(A, some (recoveredError v))]) ∧
    (q.onError = .defaultErrorHandler → ∀ fuel, 2 ≤ fuel →
      ∃ q1 w1, q.Run fuel initial w = some (q1, w1) ∧
        w1.handled = w.handled ++ [recoveredError v] ∧
        w1.executed = w.executed ++ [(A, some (recoveredError v))] ∧
        w1.ended = w.ended + 1) := by
  have hex := executeSafe_panic (q.initialized initial) A v hv
  have hit := iteration_fail (q.initialized initial) A rest w _ hex
  refine ⟨?_, ?_, hex, ?_, ?_⟩
  · rintro e rfl
    rfl
  · intro hne
    cases v with
    | error e => exact absurd rfl (hne e)
    | str s => rfl
    | int i => rfl
    | bool b => rfl
  · obtain ⟨q1, w1, h1, h2, h3, _⟩ :=
      handleError_total (({ q.initialized initial with queue := rest } : Queue).absorb
          (A.body ⟨(q.initialized initial).context, q.lockManager⟩)) (recoveredError v)
        (w.afterAction (q.initialized initial) A (some (recoveredError v)))
        (by
          intro fn hfn
          rw [absorb_onError] at hfn
          simpa using hnh fn hfn)
    exact ⟨q1, w1, hit.trans h1, by simp [h2], by simp [h3]⟩
  · intro hdef fuel hfuel
    obtain ⟨f, rfl⟩ : ∃ f, fuel = f + 2 := ⟨fuel - 2, by omega⟩
    obtain ⟨q1, w1, h1, h2, h3, h4, h5⟩ :=
      handleError_default_facts (({ q.initialized initial with queue := rest } : Queue).absorb
          (A.body ⟨(q.initialized initial).context, q.lockManager⟩)) (recoveredError v)
        (w.afterAction (q.initialized initial) A (some (recoveredError v)))
        (by rw [absorb_onError]; exact hdef)
    have hloop : Queue.loop (f + 2) (q.initialized initial) w =
        some (q1, w1.log q1.logger (.Info ("Queue(" ++ q1.name ++ "): stopped"))) := by
      rw [loop_cons (f + 1) (q.initialized initial) w A rest (by simpa using hq) q1 w1
        (hit.trans h1)]
      exact loop_nil f q1 w1 h2
    refine ⟨q1, _, run_of_loop _ _ _ _ _ _ hloop, ?_, ?_, ?_⟩
    · simp [World.log, h4]
    · simp [World.log, h3]
    · simp [World.log, h5]

/-- C6, on the queue `[A, B]` whose `A` panics with the string "boom",
under the default handler. -/
theorem panic_becomes_failure_witness :
    (∀ e, PanicValue.str "boom" = .error e → recoveredError (.str "boom") = e) ∧
    ((∀ e, PanicValue.str "boom" ≠ .error e) →
      (recoveredError (.str "boom")).message = (PanicValue.str "boom").format) ∧
    ((sampleQueue [.panicking "A" (.str "boom"), .noop "B"] none).initialized
        none).executeSafe (.panicking "A" (.str "boom")) =
      some (((sampleQueue [.panicking "A" (.str "boom"), .noop "B"] none).initialized
          none).absorb
        ((Action.panicking "A" (.str "boom")).body
          ⟨((sampleQueue [.panicking "A" (.str "boom"), .noop "B"] none).initialized
            none).context,
            (sampleQueue [.panicking "A" (.str "boom"), .noop "B"] none).lockManager⟩),
        some (recoveredError (.str "boom"))) ∧
    (∃ q1 w1,
      ((sampleQueue [.panicking "A" (.str "boom"), .noop "B"] none).initialized
        none).iteration (.panicking "A" (.str "boom")) [.noop "B"] World.init =
        some (q1, w1) ∧
      w1.handled = World.init.handled ++ [recoveredError (.str "boom")] ∧
      w1.executed = World.init.executed ++
        [(Action.panicking "A" (.str "boom"), some (recoveredError (.str "boom")))]) ∧
    ((sampleQueue [.panicking "A" (.str "boom"), .noop "B"] none).onError =
        .defaultErrorHandler → ∀ fuel, 2 ≤ fuel →
      ∃ q1 w1,
        (sampleQueue [.panicking "A" (.str "boom"), .noop "B"] none).Run fuel none
          World.init = some (q1, w1) ∧
        w1.handled = World.init.handled ++ [recoveredError (.str "boom")] ∧
        w1.executed = World.init.executed ++
          [(Action.panicking "A" (.str "boom"), some (recoveredError (.str "boom")))] ∧
        w1.ended = World.init.ended + 1) :=
  panic_becomes_failure (sampleQueue [.panicking "A" (.str "boom"), .noop "B"] none)
    (.panicking "A" (.str "boom")) [.noop "B"] none World.init (.str "boom") rfl rfl
    (by
      intro fn hfn
      simp [sampleQueue, NewQueue] at hfn)

/-- C7. A queue with a custom error handler that panics (with `v`) when it is
called for the failure `err` of the action `A`: the panic is logged to the
error sink of the queue's logger, the pending list is aborted, so that `A` is
the last action executed (whatever was pending, or pushed by `A` or by the
handler, is dropped), and `Run` returns. -/
theorem handler_panic_aborts (q : Queue) (A : Action) (rest : List Action)
    (initial : Option GoMap) (w : World) (fn : ErrorHandler) (err : GoError)
    (v : PanicValue) (fuel : Nat)
    (hq : q.queue = A :: rest)
    (hon : q.onError = .handler fn)
    (hA : A.FailsWith ⟨(q.initialized initial).context, q.lockManager⟩ err)
    (hv : (fn err (A.body ⟨(q.initialized initial).context, q.lockManager⟩).env).finish =
      .panic v)
    (hfuel : 2 ≤ fuel) :
    ∃ q1 w1, q.Run fuel initial w = some (q1, w1) ∧ q1.queue = [] ∧
      w1.executed = w.executed ++ [(A, some err)] ∧
      w1.logs = w.logs ++
        [⟨q.logger, .SetContext A.name⟩,
         ⟨q.logger, .Info ("Queue(" ++ q.name ++ "): running action")⟩,
         ⟨q.logger, .Info ("Queue(" ++ q.name ++ ") onError failed")⟩,
         ⟨q.logger, .Error (recoveredError v)⟩,
         ⟨q.logger, .Info ("Queue(" ++ q.name ++ "): stopped")⟩] ∧
      w1.errorsOf q.logger = w.errorsOf q.logger ++ [recoveredError v] ∧
      w1.ended = w.ended + 1 := by
  obtain ⟨f, rfl⟩ : ∃ f, fuel = f + 2 := ⟨fuel - 2, by omega⟩
  have hex := executeSafe_of_failsWith (q.initialized initial) A err hA
  have hit := iteration_fail (q.initialized initial) A rest w err hex
  have hh := handleError_panic (({ q.initialized initial with queue := rest } : Queue).absorb
      (A.body ⟨(q.initialized initial).context, q.lockManager⟩)) err
    (w.afterAction (q.initialized initial) A (some err)) fn
    (by rw [absorb_onError]; exact hon) v (by simpa using hv)
  have hloop := loop_cons (f + 1) (q.initialized initial) w A rest (by simpa using hq) _ _
    (hit.trans hh)
  rw [loop_nil f _ _ (abort_queue _)] at hloop
  refine ⟨_, _, run_of_loop _ _ _ _ _ _ hloop, abort_queue _, ?_, ?_, ?_, ?_⟩
  · simp [World.log]
  · simp [World.log]
  · simp [World.log, World.errorsOf, List.filterMap_append]
  · simp [World.log]

/-- C7, on the queue `[A, B]` whose `A` fails and whose custom handler
panics with the string "boom". -/
theorem handler_panic_aborts_witness :
    ∃ q1 w1,
      (sampleQueue [.failing "A" ErrInvalidScope, .noop "B"]
        (some (panickingHandler (.str "boom")))).Run 2 none World.init = some (q1, w1) ∧
      q1.queue = [] ∧
      w1.executed = World.init.executed ++
        [(Action.failing "A" ErrInvalidScope, some ErrInvalidScope)] ∧
      w1.logs = World.init.logs ++
        [⟨(sampleQueue [.failing "A" ErrInvalidScope, .noop "B"]
            (some (panickingHandler (.str "boom")))).logger,
            .SetContext (Action.failing "A" ErrInvalidScope).name⟩,
         ⟨(sampleQueue [.failing "A" ErrInvalidScope, .noop "B"]
            (some (panickingHandler (.str "boom")))).logger,
            .Info ("Queue(" ++ (sampleQueue [.failing "A" ErrInvalidScope, .noop "B"]
              (some (panickingHandler (.str "boom")))).name ++ "): running action")⟩,
         ⟨(sampleQueue [.failing "A" ErrInvalidScope, .noop "B"]
            (some (panickingHandler (.str "boom")))).logger,
            .Info ("Queue(" ++ (sampleQueue [.failing "A" ErrInvalidScope, .noop "B"]
              (some (panickingHandler (.str "boom")))).name ++ ") onError failed")⟩,
         ⟨(sampleQueue [.failing "A" ErrInvalidScope, .noop "B"]
            (some (panickingHandler (.str "boom")))).logger,
            .Error (recoveredError (.str "boom"))⟩,
         ⟨(sampleQueue [.failing "A" ErrInvalidScope, .noop "B"]
            (some (panickingHandler (.str "boom")))).logger,
            .Info ("Queue(" ++ (sampleQueue [.failing "A" ErrInvalidScope, .noop "B"]
              (some (panickingHandler (.str "boom")))).name ++ "): stopped")⟩] ∧
      w1.errorsOf (sampleQueue [.failing "A" ErrInvalidScope, .noop "B"]
          (some (panickingHandler (.str "boom")))).logger =
        World.init.errorsOf (sampleQueue [.failing "A" ErrInvalidScope, .noop "B"]
          (some (panickingHandler (.str "boom")))).logger ++ [recoveredError (.str "boom")] ∧
      w1.ended = World.init.ended + 1 :=
  handler_panic_aborts
    (sampleQueue [.failing "A" ErrInvalidScope, .noop "B"]
      (some (panickingHandler (.str "boom"))))
    (.failing "A" ErrInvalidScope) [.noop "B"] none World.init
    (panickingHandler (.str "boom")) ErrInvalidScope (.str "boom") 2 rfl rfl (Or.inl rfl) rfl
    (by decide)

/-- C8. A queue with a custom error handler that calls neither `Abort` nor
`Push` (and returns), and whose actions call neither `Push` nor `Abort`, run
with any seed: `Run` returns with nothing left pending. The executed actions
are the actions of the initial list, each exactly once and in the original
order, each recorded with its own failure (the error it returned or the one
its panic was recovered into, nil when it succeeded) in the state in which
it ran; and the errors the handler was called with are exactly the failures
of the failing actions, one call per failing action, in the order of the
failures. -/
theorem swallowing_handler_runs_all (q : Queue) (initial : Option GoMap) (w : World)
    (fn : ErrorHandler) (fuel : Nat)
    (hon : q.onError = .handler fn) (hfn : Swallows fn)
    (hquiet : ∀ a ∈ q.queue, a.Quiet)
    (hfuel : q.queue.length + 1 ≤ fuel) :
    ∃ q1 w1, q.Run fuel initial w = some (q1, w1) ∧ q1.queue = [] ∧
      w1.executed = w.executed ++
        everyActionOnce fn q.queue ⟨(q.initialized initial).context, q.lockManager⟩ ∧
      (everyActionOnce fn q.queue
        ⟨(q.initialized initial).context, q.lockManager⟩).map Prod.fst = q.queue ∧
      w1.handled = w.handled ++
        (everyActionOnce fn q.queue
          ⟨(q.initialized initial).context, q.lockManager⟩).filterMap Prod.snd := by
  obtain ⟨q1, w1, h1, h2, h3, h4, _⟩ :=
    loop_swallow_each q.queue hquiet fn hfn fuel (q.initialized initial) w rfl hon hfuel
  exact ⟨q1, _, run_of_loop _ _ _ _ _ _ h1, h2, h3, everyActionOnce_fst _ _ _, h4⟩

/-- C8, on the queue `[A, B, C]` whose `A` fails and whose `C` panics, under
a handler that swallows: the three actions are executed in order, `A` and `C`
with their errors, and the handler gets the error of `A`, then the one of
`C`. -/
theorem swallowing_handler_runs_all_witness :
    ∃ q1 w1,
      (sampleQueue [.failing "A" ErrInvalidScope, .noop "B", .panicking "C" (.str "boom")]
        (some swallow)).Run 4 none World.init = some (q1, w1) ∧
      q1.queue = [] ∧
      w1.executed = [(Action.failing "A" ErrInvalidScope, some ErrInvalidScope),
        (Action.noop "B", none), (Action.panicking "C" (.str "boom"), some ⟨"boom"⟩)] ∧
      w1.handled = [ErrInvalidScope, ⟨"boom"⟩] := by
  obtain ⟨q1, w1, h1, h2, h3, _, h5⟩ :=
    swallowing_handler_runs_all
      (sampleQueue [.failing "A" ErrInvalidScope, .noop "B", .panicking "C" (.str "boom")]
        (some swallow))
      none World.init swallow 4 rfl (fun _ _ => ⟨rfl, rfl⟩)
      (by
        intro a ha
        have ha2 : a = .failing "A" ErrInvalidScope ∨ a = .noop "B" ∨
            a = .panicking "C" (.str "boom") := by
          simpa [sampleQueue, NewQueue] using ha
        rcases ha2 with rfl | rfl | rfl
        · exact failing_quiet _ _
        · exact noop_quiet _
        · exact panicking_quiet _ _)
      (by decide)
  exact ⟨q1, w1, h1, h2, h3, h5⟩

/-- C9. The action `WithErrorHandler(action, handler)` run on a context runs
`action` once. If `action` returns nil, the handler is not called: the
wrapper does exactly what `action` did. If `action` returns `err` and the
handler returns, the wrapper does what `action` did followed by what the one
call `handler(err, ctx)` did, and it returns nil. So in a queue that starts
with the wrapper of a failing action, the queue's own error handler is not
called, and the plain actions behind the wrapper are all executed. -/
theorem withErrorHandler_recovers (action : Action) (handler : ErrorHandler) :
    (∀ env, (action.body env).finish = .returned none →
      (WithErrorHandler action (some handler)).body env = action.body env) ∧
    (∀ env err, (action.body env).finish = .returned (some err) →
      (handler err (action.body env).env).finish = .returned () →
      (WithErrorHandler action (some handler)).body env =
        ⟨(handler err (action.body env).env).env,
          (action.body env).calls ++ (handler err (action.body env).env).calls,
          .returned none⟩) ∧
    (∀ (q : Queue) (rest : List Action) (initial : Option GoMap) (w : World) (err : GoError)
      (fuel : Nat),
      q.queue = WithErrorHandler action (some handler) :: rest →
      (action.body ⟨(q.initialized initial).context, q.lockManager⟩).finish =
        .returned (some err) →
      (action.body ⟨(q.initialized initial).context, q.lockManager⟩).calls = [] →
      (handler err (action.body ⟨(q.initialized initial).context, q.lockManager⟩).env).finish
        = .returned () →
      (handler err (action.body ⟨(q.initialized initial).context, q.lockManager⟩).env).calls
        = [] →
      (∀ a ∈ rest, a.Plain) → rest.length + 2 ≤ fuel →
      ∃ q1 w1, q.Run fuel initial w = some (q1, w1) ∧
        w1.executed = w.executed ++
          (WithErrorHandler action (some handler) :: rest).map (fun a => (a, none)) ∧
        w1.handled = w.handled) := by
  have hok : ∀ env, (action.body env).finish = .returned none →
      (WithErrorHandler action (some handler)).body env = action.body env := by
    intro env h
    simp [WithErrorHandler, h]
  have herr : ∀ env err, (action.body env).finish = .returned (some err) →
      (handler err (action.body env).env).finish = .returned () →
      (WithErrorHandler action (some handler)).body env =
        ⟨(handler err (action.body env).env).env,
          (action.body env).calls ++ (handler err (action.body env).env).calls,
          .returned none⟩ := by
    intro env err h hh
    simp [WithErrorHandler, h, hh]
  refine ⟨hok, herr, ?_⟩
  intro q rest initial w err fuel hq hfin hcalls hhfin hhcalls hrest hfuel
  obtain ⟨f, rfl⟩ : ∃ f, fuel = f + 1 := ⟨fuel - 1, by omega⟩
  have hW := herr ⟨(q.initialized initial).context, q.lockManager⟩ err hfin hhfin
  have hit := iteration_ok (q.initialized initial) (WithErrorHandler action (some handler))
    rest w (by rw [initialized_lockManager, hW])
  have hq1 : (({ q.initialized initial with queue := rest } : Queue).absorb
      ((WithErrorHandler action (some handler)).body
        ⟨(q.initialized initial).context, (q.initialized initial).lockManager⟩)).queue
      = rest :=
    absorb_queue_of_no_calls _ _ (by rw [initialized_lockManager, hW]; simp [hcalls, hhcalls])
  obtain ⟨q2, w2, h1, _, h3, h4, _⟩ :=
    loop_plain rest hrest f _
      (w.afterAction (q.initialized initial) (WithErrorHandler action (some handler)) none)
      hq1 (by omega)
  refine ⟨q2, { w2 with ended := w2.ended + 1 }, ?_, ?_, ?_⟩
  · apply run_of_loop
    rw [loop_cons f (q.initialized initial) w _ rest (by simpa using hq) _ _ hit]
    exact h1
  · simp [h3]
  · simp [h4]

/-- C9, on the queue `[WithErrorHandler(A, H), B]` whose `A` fails and whose
`H` swallows: `B` still runs and the queue's handler is not called. -/
theorem withErrorHandler_recovers_witness :
    ∃ q1 w1,
      (sampleQueue [WithErrorHandler (.failing "A" ErrInvalidScope) (some swallow), .noop "B"]
        none).Run 3 none World.init = some (q1, w1) ∧
      w1.executed = World.init.executed ++
        (WithErrorHandler (.failing "A" ErrInvalidScope) (some swallow) ::
          [.noop "B"]).map (fun a => (a, none)) ∧
      w1.handled = World.init.handled :=
  (withErrorHandler_recovers (.failing "A" ErrInvalidScope) swallow).2.2
    (sampleQueue [WithErrorHandler (.failing "A" ErrInvalidScope) (some swallow), .noop "B"]
      none)
    [.noop "B"] none World.init ErrInvalidScope 3 rfl rfl rfl rfl rfl
    (by intro a ha; simp at ha; subst ha; exact noop_plain _)
    (by decide)

/-- C4, refuted as stated: a queue built with logger 1 and no custom handler,
run with an empty seed, whose first action fails. The failure reaches the
default handler, but no error sink is called, the one of the queue's logger
included. With a seed that carries logger 2, the error goes to logger 2 and
the queue's logger 1 still gets none. -/
theorem default_handler_skips_queue_logger :
    ((sampleQueue [.failing "A" ErrInvalidScope, .noop "B"] none).Run 2 (some [])
        World.init).map (fun r => (r.2.errorsOf (.ref 1), r.2.errorCalls, r.2.handled)) =
      some ([], [], [ErrInvalidScope]) ∧
    ((sampleQueue [.failing "A" ErrInvalidScope, .noop "B"] none).Run 2
        (some [("logger", .logger (.ref 2))])
        World.init).map (fun r => (r.2.errorsOf (.ref 1), r.2.errorCalls, r.2.handled)) =
      some ([], [(.ref 2, ErrInvalidScope)], [ErrInvalidScope]) := by
  constructor <;> rfl

/-- C4, amended. A queue without a custom error handler, whatever its logger
and whether newly built or run before, run with any seed: when the actions
`pre` at the front of the pending list have each returned nil without a call
of `Push` or `Abort`, and the action `A` next in line fails with `e`, then
`Run` returns with nothing left pending, the handler has been called once,
with `e`, and exactly one call of an error sink has been made, with `e`, on
the logger the context holds when `A` has failed: its field `Logger` when
that is non-nil, else the `Logger` stored under "logger" in `Data`; when the
context holds neither, no error sink has been called. The queue's own logger
plays no part. On a newly built queue whose actions up to and including `A`
leave that logger alone, it is the logger the seed carries under "logger",
and no error sink is called when the seed carries none. -/
theorem default_handler_logs_to_context_logger (q : Queue) (pre : List Action) (A : Action)
    (rest : List Action) (initial : Option GoMap) (w : World) (e : GoError) (fuel : Nat)
    (hdef : q.onError = .defaultErrorHandler)
    (hq : q.queue = pre ++ A :: rest)
    (hpre : SucceedFrom pre ⟨(q.initialized initial).context, q.lockManager⟩)
    (hA : A.FailsWith (envAfter pre ⟨(q.initialized initial).context, q.lockManager⟩) e)
    (hfuel : pre.length + 2 ≤ fuel) :
    ∃ q1 w1, q.Run fuel initial w = some (q1, w1) ∧ q1.queue = [] ∧
      w1.executed = w.executed ++ pre.map (fun a => (a, none)) ++ [(A, some e)] ∧
      w1.handled = w.handled ++ [e] ∧
      w1.errorCalls = w.errorCalls ++
        (match (A.body (envAfter pre
              ⟨(q.initialized initial).context, q.lockManager⟩)).env.ctx.Logger,
            (A.body (envAfter pre
              ⟨(q.initialized initial).context, q.lockManager⟩)).env.ctx.Get "logger" with
          | some l, _ => [(l, e)]
          | none, some (.logger l) => [(l, e)]
          | none, _ => []) ∧
      (∀ opts, q = NewQueue opts → ((initial.getD []).map Prod.fst).Nodup →
        (∀ a ∈ pre, a.KeepsLogger) → A.KeepsLogger →
        w1.errorCalls = w.errorCalls ++
          match (initial.getD []).get "logger" with
          | some (.logger l) => [(l, e)]
          | _ => []) := by
  obtain ⟨q1, w1, h1, h2, h3, h4, h5⟩ :=
    loop_default_after pre A rest e fuel (q.initialized initial) w hq hdef hpre hA hfuel
  have hrun : ({ w1 with ended := w1.ended + 1 } : World).errorCalls = w1.errorCalls := rfl
  refine ⟨q1, _, run_of_loop _ _ _ _ _ _ h1, h2, h3, h4, ?_, ?_⟩
  · rw [hrun, h5]
    exact congrArg _ (errorLogger_cases _ e)
  · intro opts hopts hkeys hkeep hkeepA
    have hctx : (q.initialized initial).context = newContext.Initialize (initial.getD []) := by
      rw [hopts]
      cases initial <;> rfl
    have hlog : (A.body (envAfter pre
        ⟨(q.initialized initial).context, q.lockManager⟩)).env.ctx.errorLogger =
        match (initial.getD []).get "logger" with
        | some (.logger l) => some l
        | _ => none := by
      rw [hkeepA, envAfter_errorLogger pre hkeep]
      show (q.initialized initial).context.errorLogger = _
      rw [hctx]
      exact errorLogger_initialize _ hkeys
    rw [hrun, h5]
    have h6 : (q.initialized initial).lockManager = q.lockManager := rfl
    rw [h6, hlog]
    cases hs : (initial.getD []).get "logger" with
    | none => rfl
    | some v => cases v <;> rfl

/-- C4 amended, on a queue built with logger 1 and run with a seed that
carries logger 2. When the second action fails, the error is logged once, to
logger 2. When the failing action has first assigned logger 3 to the
context, the error is logged once, to logger 3. -/
theorem default_handler_logs_to_context_logger_witness :
    (∃ q1 w1,
      (NewQueue ⟨[.noop "P", .failing "A" ErrInvalidScope, .noop "B"], "Q", some (.ref 1),
        none, none⟩).Run 3 (some [("logger", .logger (.ref 2))]) World.init =
        some (q1, w1) ∧
      q1.queue = [] ∧
      w1.executed = [(Action.noop "P", none),
        (Action.failing "A" ErrInvalidScope, some ErrInvalidScope)] ∧
      w1.handled = [ErrInvalidScope] ∧
      w1.errorCalls = [(.ref 2, ErrInvalidScope)]) ∧
    (∃ q1 w1,
      (NewQueue ⟨[.noop "P", .failingWithLogger "A" (.ref 3) ErrInvalidScope, .noop "B"], "Q",
        some (.ref 1), none, none⟩).Run 3 (some [("logger", .logger (.ref 2))]) World.init =
        some (q1, w1) ∧
      q1.queue = [] ∧
      w1.executed = [(Action.noop "P", none),
        (Action.failingWithLogger "A" (.ref 3) ErrInvalidScope, some ErrInvalidScope)] ∧
      w1.handled = [ErrInvalidScope] ∧
      w1.errorCalls = [(.ref 3, ErrInvalidScope)]) := by
  constructor
  · obtain ⟨q1, w1, h1, h2, h3, h4, _, h6⟩ :=
      default_handler_logs_to_context_logger
        (NewQueue ⟨[.noop "P", .failing "A" ErrInvalidScope, .noop "B"], "Q", some (.ref 1),
          none, none⟩)
        [.noop "P"] (.failing "A" ErrInvalidScope) [.noop "B"]
        (some [("logger", .logger (.ref 2))]) World.init ErrInvalidScope 3 rfl rfl
        ⟨rfl, rfl, trivial⟩ (Or.inl rfl) (by decide)
    exact ⟨q1, w1, h1, h2, h3, h4,
      h6 _ rfl (by simp) (by intro a ha; simp at ha; subst ha; exact fun _ => rfl)
        (fun _ => rfl)⟩
  · obtain ⟨q1, w1, h1, h2, h3, h4, h5, _⟩ :=
      default_handler_logs_to_context_logger
        (NewQueue ⟨[.noop "P", .failingWithLogger "A" (.ref 3) ErrInvalidScope, .noop "B"],
          "Q", some (.ref 1), none, none⟩)
        [.noop "P"] (.failingWithLogger "A" (.ref 3) ErrInvalidScope) [.noop "B"]
        (some [("logger", .logger (.ref 2))]) World.init ErrInvalidScope 3 rfl rfl
        ⟨rfl, rfl, trivial⟩ (Or.inl rfl) (by decide)
    exact ⟨q1, w1, h1, h2, h3, h4, h5⟩

/-- C10, refuted as stated: on a fresh lock manager and the scope " ", which
is empty after trimming, `IsLocked` answers false and `Unlock` returns
nothing; neither fails with `ErrInvalidScope`. So not every method of the
lock manager fails on such a scope. -/
theorem isLocked_unlock_do_not_validate :
    TrimSpace " " = "" ∧
    (LockManager.invoke ⟨newContext, NewLockManager⟩ (LockCall.IsLocked : LockCall Action)
      " ").1 = .bool false ∧
    (LockManager.invoke ⟨newContext, NewLockManager⟩ (LockCall.Unlock : LockCall Action)
      " ").1 = .nothing ∧
    ¬ ∀ (call : LockCall Action) (env : Env) (scope : String), TrimSpace scope = "" →
      (LockManager.invoke env call scope).1 = .error (some ErrInvalidScope) := by
  refine ⟨by decide, rfl, rfl, ?_⟩
  intro h
  have h2 := h .IsLocked ⟨newContext, NewLockManager⟩ " " (by decide)
  simp [LockManager.invoke] at h2

/-- C10, amended. Given a scope that is empty after trimming white space,
`Lock`, `Wait` and `RunWithLock` fail with `ErrInvalidScope`, leave the
registry as it was, and `RunWithLock` does not run its body. `IsLocked` and
`Unlock` do not validate the scope and cannot fail: `IsLocked` answers
whether the scope is registered and `Unlock` returns nothing. -/
theorem invalid_scope_rejected (scope : String) (h : TrimSpace scope = "") (env : Env) :
    LockManager.invoke env (LockCall.Lock : LockCall Action) scope =
      (.error (some ErrInvalidScope), env) ∧
    LockManager.invoke env (LockCall.Wait : LockCall Action) scope =
      (.error (some ErrInvalidScope), env) ∧
    (∀ fn : Env → Effect Action (Option GoError),
      LockManager.invoke env (.RunWithLock fn) scope = (.error (some ErrInvalidScope), env) ∧
      (LockManager.RunWithLock scope fn env).calls = []) ∧
    (LockManager.invoke env (LockCall.IsLocked : LockCall Action) scope).1 =
      .bool (decide (scope ∈ env.locks.scopes)) ∧
    (LockManager.invoke env (LockCall.Unlock : LockCall Action) scope).1 = .nothing := by
  have hv : ValidateScope scope = some ErrInvalidScope := by
    simp [ValidateScope, h]
  refine ⟨?_, ?_, ?_, rfl, rfl⟩
  · simp [LockManager.invoke, LockManager.Lock, hv]
  · simp [LockManager.invoke, LockManager.Wait, hv, LockReturn.ofFinish]
  · intro fn
    simp [LockManager.invoke, LockManager.RunWithLock, hv, LockReturn.ofFinish]

/-- C10 amended, on the scope " ". -/
theorem invalid_scope_rejected_witness :
    LockManager.invoke ⟨newContext, NewLockManager⟩ (LockCall.Lock : LockCall Action) " " =
      (.error (some ErrInvalidScope), ⟨newContext, NewLockManager⟩) ∧
    LockManager.invoke ⟨newContext, NewLockManager⟩ (LockCall.Wait : LockCall Action) " " =
      (.error (some ErrInvalidScope), ⟨newContext, NewLockManager⟩) ∧
    (∀ fn : Env → Effect Action (Option GoError),
      LockManager.invoke ⟨newContext, NewLockManager⟩ (.RunWithLock fn) " " =
        (.error (some ErrInvalidScope), ⟨newContext, NewLockManager⟩) ∧
      (LockManager.RunWithLock " " fn ⟨newContext, NewLockManager⟩).calls = []) ∧
    (LockManager.invoke ⟨newContext, NewLockManager⟩ (LockCall.IsLocked : LockCall Action)
      " ").1 = .bool (decide (" " ∈ (⟨newContext, NewLockManager⟩ : Env).locks.scopes)) ∧
    (LockManager.invoke ⟨newContext, NewLockManager⟩ (LockCall.Unlock : LockCall Action)
      " ").1 = .nothing :=
  invalid_scope_rejected " " (by decide) ⟨newContext, NewLockManager⟩

/-- C11. For every state of the lock manager and every valid scope `s`:
`Lock(s)` succeeds exactly when `s` is not held; after a successful `Lock(s)`
the scope is held; `Lock(s)` on a held scope fails with the error "scope is
already locked" and leaves the manager as it was, `s` still held; after
`Unlock(s)` the scope is not held. -/
theorem lock_then_unlock (m : LockManager) (s : String) (hs : ValidateScope s = none) :
    ((m.Lock s).2 = none ↔ m.IsLocked s = false) ∧
    ((m.Lock s).2 = none → (m.Lock s).1.IsLocked s = true) ∧
    (m.IsLocked s = true →
      m.Lock s = (m, some ⟨"scope is already locked"⟩) ∧ (m.Lock s).1.IsLocked s = true) ∧
    ((m.Lock s).2 = none →
      ((m.Lock s).1.Lock s).2 = some ⟨"scope is already locked"⟩ ∧
      ((m.Lock s).1.Lock s).1.IsLocked s = true) ∧
    (m.Unlock s).IsLocked s = false ∧
    ((m.Lock s).1.Unlock s).IsLocked s = false := by
  have hheld : ∀ m2 : LockManager, m2.IsLocked s = true →
      m2.Lock s = (m2, some ⟨"scope is already locked"⟩) ∧ (m2.Lock s).1.IsLocked s = true := by
    intro m2 h
    rw [lock_of_held m2 s hs h]
    exact ⟨rfl, h⟩
  have hafter : (m.Lock s).2 = none → (m.Lock s).1.IsLocked s = true := by
    intro h
    cases hl : m.IsLocked s with
    | true => rw [lock_of_held m s hs hl] at h; simp at h
    | false => rw [lock_of_free m s hs hl]; simp [LockManager.IsLocked]
  refine ⟨?_, hafter, hheld m, ?_, isLocked_unlock_self _ _, isLocked_unlock_self _ _⟩
  · cases hl : m.IsLocked s with
    | true => rw [lock_of_held m s hs hl]; simp
    | false => rw [lock_of_free m s hs hl]; simp
  · intro h
    have h2 := hheld _ (hafter h)
    exact ⟨by rw [h2.1], h2.2⟩

/-- C11, on a fresh lock manager and the scope "browser". -/
theorem lock_then_unlock_witness :
    ((NewLockManager.Lock "browser").2 = none ↔ NewLockManager.IsLocked "browser" = false) ∧
    ((NewLockManager.Lock "browser").2 = none →
      (NewLockManager.Lock "browser").1.IsLocked "browser" = true) ∧
    (NewLockManager.IsLocked "browser" = true →
      NewLockManager.Lock "browser" = (NewLockManager, some ⟨"scope is already locked"⟩) ∧
      (NewLockManager.Lock "browser").1.IsLocked "browser" = true) ∧
    ((NewLockManager.Lock "browser").2 = none →
      ((NewLockManager.Lock "browser").1.Lock "browser").2 =
        some ⟨"scope is already locked"⟩ ∧
      ((NewLockManager.Lock "browser").1.Lock "browser").1.IsLocked "browser" = true) ∧
    (NewLockManager.Unlock "browser").IsLocked "browser" = false ∧
    ((NewLockManager.Lock "browser").1.Unlock "browser").IsLocked "browser" = false :=
  lock_then_unlock NewLockManager "browser" (by decide)

/-- C12. For every valid scope that is not held and every body that returns
`r` (nil or an error) without touching the lock manager: `RunWithLock` runs
the body once, in a state where the scope is held; it returns exactly `r`
with the effect of that one run; and on return the scope is not held, the
registry being what it was before the call. -/
theorem runWithLock_releases (scope : String) (fn : Env → Effect Action (Option GoError))
    (env : Env) (r : Option GoError)
    (hs : ValidateScope scope = none)
    (hfree : env.locks.IsLocked scope = false)
    (hret : (fn { env with locks := ⟨scope :: env.locks.scopes⟩ }).finish = .returned r)
    (hlocks : (fn { env with locks := ⟨scope :: env.locks.scopes⟩ }).env.locks =
      ⟨scope :: env.locks.scopes⟩) :
    ({ env with locks := ⟨scope :: env.locks.scopes⟩ } : Env).locks.IsLocked scope = true ∧
    LockManager.RunWithLock scope fn env =
      ⟨{ (fn { env with locks := ⟨scope :: env.locks.scopes⟩ }).env with locks := env.locks },
        (fn { env with locks := ⟨scope :: env.locks.scopes⟩ }).calls, .returned r⟩ ∧
    (LockManager.RunWithLock scope fn env).env.locks.IsLocked scope = false := by
  have hrun : LockManager.RunWithLock scope fn env =
      ⟨{ (fn { env with locks := ⟨scope :: env.locks.scopes⟩ }).env with locks := env.locks },
        (fn { env with locks := ⟨scope :: env.locks.scopes⟩ }).calls, .returned r⟩ := by
    simp only [LockManager.RunWithLock, hs, hfree, hret, hlocks]
    simp [unlock_cons_of_free env.locks scope hfree, LockManager.IsLocked]
  refine ⟨by simp [LockManager.IsLocked], hrun, ?_⟩
  rw [hrun]
  exact hfree

/-- C12, on the scope "browser" of a fresh lock manager and a body that
returns an error. -/
theorem runWithLock_releases_witness :
    ({ (⟨newContext, NewLockManager⟩ : Env) with
        locks := ⟨"browser" :: (⟨newContext, NewLockManager⟩ : Env).locks.scopes⟩ } :
      Env).locks.IsLocked "browser" = true ∧
    LockManager.RunWithLock "browser"
        (fun env => (⟨env, [], .returned (some ErrInvalidScope)⟩ :
          Effect Action (Option GoError)))
        ⟨newContext, NewLockManager⟩ =
      ⟨{ ((fun env => (⟨env, [], .returned (some ErrInvalidScope)⟩ :
            Effect Action (Option GoError)))
          { (⟨newContext, NewLockManager⟩ : Env) with
            locks := ⟨"browser" :: (⟨newContext, NewLockManager⟩ : Env).locks.scopes⟩ }).env
          with locks := (⟨newContext, NewLockManager⟩ : Env).locks },
        ((fun env => (⟨env, [], .returned (some ErrInvalidScope)⟩ :
            Effect Action (Option GoError)))
          { (⟨newContext, NewLockManager⟩ : Env) with
            locks := ⟨"browser" :: (⟨newContext, NewLockManager⟩ : Env).locks.scopes⟩ }).calls,
        .returned (some ErrInvalidScope)⟩ ∧
    (LockManager.RunWithLock "browser"
        (fun env => (⟨env, [], .returned (some ErrInvalidScope)⟩ :
          Effect Action (Option GoError)))
        ⟨newContext, NewLockManager⟩).env.locks.IsLocked "browser" = false :=
  runWithLock_releases "browser"
    (fun env => (⟨env, [], .returned (some ErrInvalidScope)⟩ : Effect Action (Option GoError)))
    ⟨newContext, NewLockManager⟩ (some ErrInvalidScope) (by decide) (by decide) rfl rfl

/-- C13, the code at a failing input: the queue `[WithLock("browser", A), B]`
on a fresh lock manager, where `A` panics with the string "boom". The panic
is contained and becomes the failure "boom" of the action, handed to the
error handler, and `Run` returns; but the scope "browser" is still held
afterwards. When `A` returns the error instead of panicking, the scope is
released. -/
theorem withLock_panic_keeps_scope_held :
    ((sampleQueue [WithLock true "browser" (.panicking "A" (.str "boom")), .noop "B"]
        none).Run 2 none World.init).map
      (fun r => (r.1.lockManager.IsLocked "browser",
        r.2.executed.map (fun p => (p.1.name, p.2)), r.2.handled, r.2.ended)) =
      some (true, [("WithLock.func2", some ⟨"boom"⟩)], [⟨"boom"⟩], 1) ∧
    ((sampleQueue [WithLock true "browser" (.failing "A" ⟨"boom"⟩), .noop "B"]
        none).Run 2 none World.init).map
      (fun r => (r.1.lockManager.IsLocked "browser",
        r.2.executed.map (fun p => (p.1.name, p.2)), r.2.handled, r.2.ended)) =
      some (false, [("WithLock.func2", some ⟨"boom"⟩)], [⟨"boom"⟩], 1) := by
  constructor <;> rfl

/-- C15. For every scope that is empty after trimming white space and every
action, the action `WithLock(scope, action)` called on any context (with or
without a locking capability, in any state) returns `ErrInvalidScope`, makes
no hook call and leaves the context and the lock registry as they were; the
wrapped action is not run, so the result does not depend on it. -/
theorem withLock_invalid_scope (scope : String) (h : TrimSpace scope = "") (locking : Bool)
    (action : Action) (env : Env) :
    (WithLock locking scope action).body env = ⟨env, [], .returned (some ErrInvalidScope)⟩ ∧
    ((WithLock locking scope action).body env).env.locks = env.locks ∧
    ∀ other : Action, (WithLock locking scope other).body = (WithLock locking scope action).body := by
  have hv : ValidateScope scope = some ErrInvalidScope := by
    simp [ValidateScope, h]
  have hb : ∀ a : Action, (WithLock locking scope a).body =
      fun env => ⟨env, [], .returned (some ErrInvalidScope)⟩ := by
    intro a
    simp [WithLock, hv]
  refine ⟨by rw [hb], by rw [hb], ?_⟩
  intro other
  rw [hb, hb]

/-- C15, on the scope " " and a context without a locking capability. -/
theorem withLock_invalid_scope_witness :
    (WithLock false " " (.noop "A")).body ⟨newContext, NewLockManager⟩ =
      ⟨⟨newContext, NewLockManager⟩, [], .returned (some ErrInvalidScope)⟩ ∧
    ((WithLock false " " (.noop "A")).body ⟨newContext, NewLockManager⟩).env.locks =
      (⟨newContext, NewLockManager⟩ : Env).locks ∧
    ∀ other : Action,
      (WithLock false " " other).body = (WithLock false " " (.noop "A")).body :=
  withLock_invalid_scope " " (by decide) false (.noop "A") ⟨newContext, NewLockManager⟩

/-- C16. A queue whose head is `Util.If(cond, {Then, Else})`, where `cond`
returns `b` without error (and calls no hook), and the chosen branch and the
rest of the pending list are plain: `Run` returns having executed the `If`
action, then `Then` in its order when `b` is true and `Else` in its order
when `b` is false (nothing when `Else` is empty), then the rest. No action of
the other branch is executed, and the context after the `If` action is the
one a single evaluation of `cond` left. -/
theorem if_runs_chosen_branch (q : Queue) (condition : Condition) (branches : Branches)
    (rest : List Action) (initial : Option GoMap) (w : World) (b : Bool) (fuel : Nat)
    (hq : q.queue = Util.If condition branches :: rest)
    (hcond : (condition ⟨(q.initialized initial).context, q.lockManager⟩).finish =
      .returned (b, none))
    (hcalls : (condition ⟨(q.initialized initial).context, q.lockManager⟩).calls = [])
    (hbranch : ∀ a ∈ (if b then branches.Then else branches.Else), a.Plain)
    (hrest : ∀ a ∈ rest, a.Plain)
    (hfuel : (if b then branches.Then else branches.Else).length + rest.length + 2 ≤ fuel) :
    ∃ q1 w1, q.Run fuel initial w = some (q1, w1) ∧ q1.queue = [] ∧
      w1.executed = w.executed ++
        (Util.If condition branches ::
          ((if b then branches.Then else branches.Else) ++ rest)).map (fun a => (a, none)) ∧
      ((Util.If condition branches).body
        ⟨(q.initialized initial).context, q.lockManager⟩).env =
        (condition ⟨(q.initialized initial).context, q.lockManager⟩).env := by
  have hbody : (Util.If condition branches).body
      ⟨(q.initialized initial).context, q.lockManager⟩ =
      ⟨(condition ⟨(q.initialized initial).context, q.lockManager⟩).env,
        if (if b then branches.Then else branches.Else).length > 0 ∨ b = true then
          [.push (if b then branches.Then else branches.Else)] else [],
        .returned none⟩ := by
    cases b with
    | true => rw [if_body_true _ _ _ hcond, hcalls]; simp
    | false => rw [if_body_false _ _ _ hcond, hcalls]; simp
  have hnext : (({ q.initialized initial with queue := rest } : Queue).absorb
      ((Util.If condition branches).body
        ⟨(q.initialized initial).context, q.lockManager⟩)).queue =
      (if b then branches.Then else branches.Else) ++ rest := by
    by_cases hp : (if b then branches.Then else branches.Else).length > 0 ∨ b = true
    · exact absorb_queue_of_push _ _ _ (by rw [hbody]; simp [hp])
    · have hnil : (if b then branches.Then else branches.Else) = [] := by
        have : ¬ (if b then branches.Then else branches.Else).length > 0 := fun h => hp (Or.inl h)
        exact List.length_eq_zero.mp (by omega)
      rw [hnil]
      exact absorb_queue_of_no_calls _ _ (by rw [hbody]; simp [hp])
  obtain ⟨q1, w1, h1, h2, h3, _⟩ :=
    run_head_then_plain q (Util.If condition branches) rest
      ((if b then branches.Then else branches.Else) ++ rest) initial w fuel hq
      (by rw [hbody]) hnext
      (by
        intro a ha
        rcases List.mem_append.mp ha with h | h
        · exact hbranch a h
        · exact hrest a h)
      (by simp; omega)
  exact ⟨q1, w1, h1, h2, h3, by rw [hbody]⟩

/-- C16, on the queue `[If(flag, {Then: [T1, T2], Else: [E]}), After]` with a
condition that answers false: the run executes the `If`, `E`, `After`. -/
theorem if_runs_chosen_branch_witness :
    ∃ q1 w1,
      (sampleQueue
        [Util.If (fun env => ⟨env, [], .returned (false, none)⟩)
          ⟨[.noop "T1", .noop "T2"], [.noop "E"]⟩, .noop "After"] none).Run 4 none
        World.init = some (q1, w1) ∧
      q1.queue = [] ∧
      w1.executed = World.init.executed ++
        (Util.If (fun env => ⟨env, [], .returned (false, none)⟩)
            ⟨[.noop "T1", .noop "T2"], [.noop "E"]⟩ ::
          ((if false = true then (⟨[.noop "T1", .noop "T2"], [.noop "E"]⟩ : Branches).Then
            else (⟨[.noop "T1", .noop "T2"], [.noop "E"]⟩ : Branches).Else) ++
            [.noop "After"])).map (fun a => (a, none)) ∧
      ((Util.If (fun env => ⟨env, [], .returned (false, none)⟩)
          ⟨[.noop "T1", .noop "T2"], [.noop "E"]⟩).body
        ⟨((sampleQueue
          [Util.If (fun env => ⟨env, [], .returned (false, none)⟩)
            ⟨[.noop "T1", .noop "T2"], [.noop "E"]⟩, .noop "After"] none).initialized
          none).context,
          (sampleQueue
          [Util.If (fun env => ⟨env, [], .returned (false, none)⟩)
            ⟨[.noop "T1", .noop "T2"], [.noop "E"]⟩, .noop "After"] none).lockManager⟩).env =
        ((fun env => ⟨env, [], .returned (false, none)⟩ : Condition)
          ⟨((sampleQueue
          [Util.If (fun env => ⟨env, [], .returned (false, none)⟩)
            ⟨[.noop "T1", .noop "T2"], [.noop "E"]⟩, .noop "After"] none).initialized
          none).context,
          (sampleQueue
          [Util.If (fun env => ⟨env, [], .returned (false, none)⟩)
            ⟨[.noop "T1", .noop "T2"], [.noop "E"]⟩, .noop "After"] none).lockManager⟩).env :=
  if_runs_chosen_branch
    (sampleQueue
      [Util.If (fun env => ⟨env, [], .returned (false, none)⟩)
        ⟨[.noop "T1", .noop "T2"], [.noop "E"]⟩, .noop "After"] none)
    (fun env => ⟨env, [], .returned (false, none)⟩) ⟨[.noop "T1", .noop "T2"], [.noop "E"]⟩
    [.noop "After"] none World.init false 4 rfl rfl rfl
    (by intro a ha; simp at ha; subst ha; exact noop_plain _)
    (by intro a ha; simp at ha; subst ha; exact noop_plain _)
    (by decide)

/-- C17. A queue whose head is `Util.Valid(validator, actions)`, where the
validator returns `b` without error (and calls no hook), and the rest of the
pending list is plain: when `b` is true (and `actions` are plain) `Run`
executes the `Valid` action, then `actions` in their order, then the rest;
when `b` is false it executes the `Valid` action and then the rest, and none
of `actions`. -/
theorem valid_runs_actions_when_true (q : Queue) (validator : Validator)
    (actions rest : List Action) (initial : Option GoMap) (w : World) (b : Bool) (fuel : Nat)
    (hq : q.queue = Util.Valid validator actions :: rest)
    (hval : (validator ⟨(q.initialized initial).context, q.lockManager⟩).finish =
      .returned (b, none))
    (hcalls : (validator ⟨(q.initialized initial).context, q.lockManager⟩).calls = [])
    (hactions : b = true → ∀ a ∈ actions, a.Plain)
    (hrest : ∀ a ∈ rest, a.Plain)
    (hfuel : (if b then actions else []).length + rest.length + 2 ≤ fuel) :
    ∃ q1 w1, q.Run fuel initial w = some (q1, w1) ∧ q1.queue = [] ∧
      w1.executed = w.executed ++
        (Util.Valid validator actions :: ((if b then actions else []) ++ rest)).map
          (fun a => (a, none)) := by
  have hbody := valid_body validator actions
    ⟨(q.initialized initial).context, q.lockManager⟩ b hval
  rw [hcalls] at hbody
  have hnext : (({ q.initialized initial with queue := rest } : Queue).absorb
      ((Util.Valid validator actions).body
        ⟨(q.initialized initial).context, q.lockManager⟩)).queue =
      (if b then actions else []) ++ rest := by
    cases b with
    | true => exact absorb_queue_of_push _ _ _ (by rw [hbody]; simp)
    | false => exact absorb_queue_of_no_calls _ _ (by rw [hbody]; simp)
  obtain ⟨q1, w1, h1, h2, h3, _⟩ :=
    run_head_then_plain q (Util.Valid validator actions) rest
      ((if b then actions else []) ++ rest) initial w fuel hq
      (by rw [hbody]) hnext
      (by
        intro a ha
        rcases List.mem_append.mp ha with h | h
        · cases b with
          | true => exact hactions rfl a (by simpa using h)
          | false => simp at h
        · exact hrest a h)
      (by simp; omega)
  exact ⟨q1, w1, h1, h2, h3⟩

/-- C17, on the queue `[Valid(v, [X]), After]` with a validator that answers
false: the run executes the `Valid` action and `After`, not `X`. -/
theorem valid_runs_actions_when_true_witness :
    ∃ q1 w1,
      (sampleQueue
        [Util.Valid (fun env => ⟨env, [], .returned (false, none)⟩) [.failing "X" ⟨"no"⟩],
          .noop "After"] none).Run 3 none World.init = some (q1, w1) ∧
      q1.queue = [] ∧
      w1.executed = World.init.executed ++
        (Util.Valid (fun env => ⟨env, [], .returned (false, none)⟩) [.failing "X" ⟨"no"⟩] ::
          ((if false = true then [Action.failing "X" ⟨"no"⟩] else []) ++
            [.noop "After"])).map (fun a => (a, none)) :=
  valid_runs_actions_when_true
    (sampleQueue
      [Util.Valid (fun env => ⟨env, [], .returned (false, none)⟩) [.failing "X" ⟨"no"⟩],
        .noop "After"] none)
    (fun env => ⟨env, [], .returned (false, none)⟩) [.failing "X" ⟨"no"⟩] [.noop "After"]
    none World.init false 3 rfl rfl rfl
    (by intro h; cases h)
    (by intro a ha; simp at ha; subst ha; exact noop_plain _)
    (by decide)

/-- C20. For every state of a context and every seed (a map: its keys are
distinct), after `Initialize(seed)` the data holds exactly the entries of the
seed, whatever it held before: `Get` returns the seed's value for every key
of the seed and reports not-found for every other key. The same holds for
the context of a queue at the start of `Run(seed)`, and after `Run(nil)`
every key is not-found. -/
theorem initialize_replaces_data (ctx : Context) (seed : GoMap)
    (hkeys : (seed.map Prod.fst).Nodup) :
    (∀ key value, (key, value) ∈ seed → (ctx.Initialize seed).Get key = some value) ∧
    (∀ key, key ∉ seed.map Prod.fst → (ctx.Initialize seed).Get key = none) ∧
    (∀ (q : Queue) (key : String),
      (q.initialized (some seed)).context.Get key = seed.get key) ∧
    (∀ (q : Queue) (key : String), (q.initialized none).context.Get key = none) := by
  refine ⟨?_, ?_, ?_, ?_⟩
  · intro key value h
    rw [initialize_get ctx seed hkeys, get_of_mem seed hkeys key value h]
  · intro key h
    rw [initialize_get ctx seed hkeys, get_none_of_not_mem seed key h]
  · intro q key
    exact initialize_get q.context seed hkeys key
  · intro q key
    rfl

/-- C20, on a context that held `old = 1` and the seed `{tag: "ok"}`. -/
theorem initialize_replaces_data_witness :
    (∀ key value, (key, value) ∈ ([("tag", Value.str "ok")] : GoMap) →
      ((⟨some [("old", .int 1)], none⟩ : Context).Initialize
        [("tag", .str "ok")]).Get key = some value) ∧
    (∀ key, key ∉ ([("tag", Value.str "ok")] : GoMap).map Prod.fst →
      ((⟨some [("old", .int 1)], none⟩ : Context).Initialize
        [("tag", .str "ok")]).Get key = none) ∧
    (∀ (q : Queue) (key : String),
      (q.initialized (some [("tag", .str "ok")])).context.Get key =
        GoMap.get [("tag", .str "ok")] key) ∧
    (∀ (q : Queue) (key : String), (q.initialized none).context.Get key = none) :=
  initialize_replaces_data ⟨some [("old", .int 1)], none⟩ [("tag", .str "ok")] (by simp)

/-- C18. For every runner and every sequence of events on it (calls of
`Add` among them) during which the 64-bit counter does not wrap: each `Add`
with the empty name assigns the name "queue-N", where `N` is the number drawn
from the counter, and `N` is strictly larger than the `N` of every earlier
such `Add`, so these names are pairwise distinct. In any state, the number
drawn is the counter plus one modulo 2^64, and an `Add` with a non-empty name
uses that name verbatim: its queue is registered under it and carries it. -/
theorem auto_names_increase (runner : QueueRunner) (events : List RunnerEvent)
    (hnowrap : runner.counter + events.countP RunnerEvent.isAuto < 2 ^ 64) :
    (∀ p ∈ autoAssigned runner events, p.2 = "queue-" ++ formatUint p.1) ∧
    ((autoAssigned runner events).map Prod.fst).Pairwise (fun n m => n < m) ∧
    ((autoAssigned runner events).map Prod.snd).Nodup ∧
    (runner.resolveName "").1 = "queue-" ++ formatUint ((runner.counter + 1) % 2 ^ 64) ∧
    (∀ name, name ≠ "" → ∀ (actions : List Action) (context : Option GoMap),
      (runner.resolveName name).1 = name ∧
      ∃ queue, (name, queue) ∈ (runner.Add actions context name).queues ∧
        queue.name = name ∧ queue.queue = actions) := by
  have heq := autoAssigned_eq events runner hnowrap
  refine ⟨?_, ?_, ?_, ?_, ?_⟩
  · intro p hp
    rw [heq] at hp
    obtain ⟨n, _, rfl⟩ := List.mem_map.mp hp
    rfl
  · rw [heq, List.map_map]
    have hid : (Prod.fst ∘ fun n : Nat => (n, "queue-" ++ formatUint n)) = id := rfl
    rw [hid, List.map_id]
    exact List.pairwise_lt_range' _ _
  · rw [heq, List.map_map]
    apply List.Nodup.map_on _ (List.nodup_range' _ _)
    intro x hx y hy hxy
    have hx0 : 0 < x := by
      have := (List.mem_range'_1.mp hx).1
      omega
    have hy0 : 0 < y := by
      have := (List.mem_range'_1.mp hy).1
      omega
    exact queueName_inj x y hx0 hy0 hxy
  · simp [QueueRunner.getName]
  · intro name hname actions context
    refine ⟨by rw [resolveName_given runner name hname], ?_⟩
    refine ⟨NewQueue ⟨actions, name, runner.logger, some runner.locking, none⟩, ?_, ?_, ?_⟩
    · simp only [QueueRunner.Add, resolveName_given runner name hname]
      exact mem_setQueue _ _ _
    · simp [NewQueue, hname]
    · simp [NewQueue]

/-- C18, on a new runner and the calls `Add(.., "")`, `Add(.., "named-queue")`,
`Add(.., "")`. -/
theorem auto_names_increase_witness :
    (∀ p ∈ autoAssigned (NewQueueRunner ⟨none⟩)
        [.add [] none "", .add [] none "named-queue", .add [] none ""],
      p.2 = "queue-" ++ formatUint p.1) ∧
    ((autoAssigned (NewQueueRunner ⟨none⟩)
        [.add [] none "", .add [] none "named-queue", .add [] none ""]).map
      Prod.fst).Pairwise (fun n m => n < m) ∧
    ((autoAssigned (NewQueueRunner ⟨none⟩)
        [.add [] none "", .add [] none "named-queue", .add [] none ""]).map
      Prod.snd).Nodup ∧
    ((NewQueueRunner ⟨none⟩).resolveName "").1 =
      "queue-" ++ formatUint (((NewQueueRunner ⟨none⟩).counter + 1) % 2 ^ 64) ∧
    (∀ name, name ≠ "" → ∀ (actions : List Action) (context : Option GoMap),
      ((NewQueueRunner ⟨none⟩).resolveName name).1 = name ∧
      ∃ queue, (name, queue) ∈ ((NewQueueRunner ⟨none⟩).Add actions context name).queues ∧
        queue.name = name ∧ queue.queue = actions) :=
  auto_names_increase (NewQueueRunner ⟨none⟩)
    [.add [] none "", .add [] none "named-queue", .add [] none ""]
    (by simp [NewQueueRunner, RunnerEvent.isAuto, List.countP_cons])

/-- C19, refuted as stated: on a new runner with listener 7, two queues are
added under the same name "X" and then one of them completes (every event can
happen in its turn). The listener is called with ("X", 0), although one
queue, the other "X", is still live: the second `Add` overwrote the entry of
the first in the live mapping, and the completion deleted it. -/
theorem listener_undercounts_with_duplicate_names :
    (RunnerState.init ⟨none⟩).Orderly
      [.addEndListener 7, .add [] none "X", .add [] none "X", .queueEnd "X"] ∧
    ((RunnerState.init ⟨none⟩).run
      [.addEndListener 7, .add [] none "X", .add [] none "X", .queueEnd "X"]).notified =
      [⟨7, "X", 0⟩] ∧
    ((RunnerState.init ⟨none⟩).run
      [.addEndListener 7, .add [] none "X", .add [] none "X", .queueEnd "X"]).live =
      ["X"] := by
  refine ⟨?_, by decide, by decide⟩
  simp [RunnerState.Orderly, RunnerState.Possible, RunnerState.step, RunnerState.init,
    QueueRunner.resolveName]

/-- C19, amended. For every runner and every sequence of events in which no
queue is added under the name of a queue that is live at that moment: when a
live queue `name` completes, every registered listener is called, in
registration order, with `name` and with the number of queues still live
(added and not yet completed, the completing one no longer counted), and at
that moment `name` is absent from the runner's live mapping. -/
theorem listeners_get_live_count (opts : RunnerOpts) (events : List RunnerEvent)
    (name : String)
    (hdist : (RunnerState.init opts).DistinctNames events)
    (hlive : name ∈ ((RunnerState.init opts).run events).live) :
    ((((RunnerState.init opts).run events).step (.queueEnd name)).notified =
      ((RunnerState.init opts).run events).notified ++
        ((RunnerState.init opts).run events).runner.listeners.map
          (fun l => ⟨l, name,
            (((RunnerState.init opts).run events).step (.queueEnd name)).live.length⟩)) ∧
    (((RunnerState.init opts).run events).step (.queueEnd name)).live.length + 1 =
      ((RunnerState.init opts).run events).live.length ∧
    name ∉ (((RunnerState.init opts).run events).step (.queueEnd name)).live ∧
    name ∉ (((RunnerState.init opts).run events).step
      (.queueEnd name)).runner.queues.map Prod.fst := by
  obtain ⟨st, hst⟩ : ∃ st, st = (RunnerState.init opts).run events := ⟨_, rfl⟩
  rw [← hst] at hlive ⊢
  have hinv : st.Tracked := by
    rw [hst]
    exact tracked_run events _ (tracked_init opts) hdist
  have hinv2 : (st.step (.queueEnd name)).Tracked := tracked_step st _ hinv trivial
  have hlen : (deleteQueue st.runner.queues name).length = (st.live.erase name).length := by
    have h := hinv2.1.length_eq
    simpa using h
  have hnot : name ∉ st.live.erase name := by
    intro h
    exact ((hinv.2.mem_erase_iff).mp h).1 rfl
  refine ⟨?_, ?_, hnot, ?_⟩
  · simp only [RunnerState.step, QueueRunner.onQueueEnd, hlen]
  · show (st.live.erase name).length + 1 = st.live.length
    rw [List.length_erase_of_mem hlive]
    have : 0 < st.live.length := List.length_pos_of_mem hlive
    omega
  · intro h
    exact hnot (hinv2.1.mem_iff.mp h)

/-- C19 amended, on a new runner with listener 7 and the queues "X" and "Y":
when "X" completes, the listener is called with ("X", 1). -/
theorem listeners_get_live_count_witness :
    ((((RunnerState.init ⟨none⟩).run
        [.addEndListener 7, .add [] none "X", .add [] none "Y"]).step
        (.queueEnd "X")).notified =
      ((RunnerState.init ⟨none⟩).run
        [.addEndListener 7, .add [] none "X", .add [] none "Y"]).notified ++
        ((RunnerState.init ⟨none⟩).run
          [.addEndListener 7, .add [] none "X", .add [] none "Y"]).runner.listeners.map
          (fun l => ⟨l, "X",
            (((RunnerState.init ⟨none⟩).run
              [.addEndListener 7, .add [] none "X", .add [] none "Y"]).step
              (.queueEnd "X")).live.length⟩)) ∧
    (((RunnerState.init ⟨none⟩).run
        [.addEndListener 7, .add [] none "X", .add [] none "Y"]).step
        (.queueEnd "X")).live.length + 1 =
      ((RunnerState.init ⟨none⟩).run
        [.addEndListener 7, .add [] none "X", .add [] none "Y"]).live.length ∧
    "X" ∉ (((RunnerState.init ⟨none⟩).run
        [.addEndListener 7, .add [] none "X", .add [] none "Y"]).step
        (.queueEnd "X")).live ∧
    "X" ∉ (((RunnerState.init ⟨none⟩).run
        [.addEndListener 7, .add [] none "X", .add [] none "Y"]).step
        (.queueEnd "X")).runner.queues.map Prod.fst :=
  listeners_get_live_count ⟨none⟩ [.addEndListener 7, .add [] none "X", .add [] none "Y"] "X"
    (by
      simp [RunnerState.DistinctNames, RunnerState.Fresh, RunnerState.step, RunnerState.init,
        QueueRunner.resolveName])
    (by decide)

/-- C21. For every state of a context, the one without a backing store
included, and every mapping `values` (a map: its keys are distinct): after
`Extend(values)`, `Get` returns the entry of `values` for every key of
`values`, and for every other key it returns what it returned before the
call; no existing entry is cleared or changed. -/
theorem extend_merges (ctx : Context) (values : GoMap)
    (hkeys : (values.map Prod.fst).Nodup) :
    (∀ key value, (key, value) ∈ values → (ctx.Extend values).Get key = some value) ∧
    (∀ key, key ∉ values.map Prod.fst → (ctx.Extend values).Get key = ctx.Get key) := by
  refine ⟨?_, ?_⟩
  · intro key value h
    rw [extend_get ctx values hkeys, get_of_mem values hkeys key value h]
  · intro key h
    rw [extend_get ctx values hkeys, get_none_of_not_mem values key h]

/-- C21, on a context without a backing store and on the values
`{tag: "alpha"}`. -/
theorem extend_merges_witness :
    (∀ key value, (key, value) ∈ ([("tag", Value.str "alpha")] : GoMap) →
      ((⟨none, none⟩ : Context).Extend [("tag", .str "alpha")]).Get key = some value) ∧
    (∀ key, key ∉ ([("tag", Value.str "alpha")] : GoMap).map Prod.fst →
      ((⟨none, none⟩ : Context).Extend [("tag", .str "alpha")]).Get key =
        (⟨none, none⟩ : Context).Get key) :=
  extend_merges ⟨none, none⟩ [("tag", .str "alpha")] (by simp)

/-- C22. For every queue, with pending list `rest`, and batches `P1` and
`P2` (empty or not): after `ctx.Push(P1)` followed by `ctx.Push(P2)` the
pending list is `P2`, then `P1`, then `rest`, each batch in its given order;
`Push` of an empty batch leaves the queue as it was, and so does `ctx.Push`
on a context without the queue hook. -/
theorem push_prepends_batches (q : Queue) (P1 P2 : List Action) :
    (Context.Push (some Queue.Push) P2 (Context.Push (some Queue.Push) P1 q)).queue =
      P2 ++ P1 ++ q.queue ∧
    (Context.Push (some Queue.Push) P1 q).queue = P1 ++ q.queue ∧
    Context.Push (some Queue.Push) [] q = q ∧
    Queue.Push [] q = q ∧
    Context.Push none P1 q = q := by
  have h1 : ∀ (P : List Action) (q0 : Queue),
      (Context.Push (some Queue.Push) P q0).queue = P ++ q0.queue := by
    intro P q0
    cases P <;> simp [Context.Push, Queue.Push]
  refine ⟨?_, h1 P1 q, rfl, rfl, rfl⟩
  rw [h1, h1, List.append_assoc]

/-- C24. For every action and every context state, the action
`WithErrorHandler(action, nil)` does exactly what `action` does: same effect
and same outcome; a failure of the wrapped action is returned unchanged, not
swallowed. -/
theorem withErrorHandler_nil_is_action (action : Action) (env : Env) :
    (WithErrorHandler action none).body env = action.body env ∧
    ((WithErrorHandler action none).body env).finish = (action.body env).finish := by
  have h : (WithErrorHandler action none).body env = action.body env := by
    simp only [WithErrorHandler, body_mk]
    split
    · rename_i heq
      simp at heq
    · rfl
  exact ⟨h, by rw [h]⟩

/-- C23. `Abort` is not sticky. When the executing action `A` calls
`ctx.Abort()` and afterwards `ctx.Push(P)`, the pending list after the action
is exactly `P`, whatever was pending or pushed before; and when `A` returns
nil and the actions of `P` are plain, `Run` goes on after `A` and executes
the actions of `P` in their order before it stops. -/
theorem abort_then_push_runs_batch (q : Queue) (A : Action) (rest P : List Action)
    (initial : Option GoMap) (w : World) (fuel : Nat) (before : List (QueueCall Action))
    (hq : q.queue = A :: rest)
    (hcalls : (A.body ⟨(q.initialized initial).context, q.lockManager⟩).calls =
      before ++ [.abort, .push P])
    (hret : (A.body ⟨(q.initialized initial).context, q.lockManager⟩).finish = .returned none)
    (hP : ∀ a ∈ P, a.Plain) (hfuel : P.length + 2 ≤ fuel) :
    (({ q.initialized initial with queue := rest } : Queue).absorb
      (A.body ⟨(q.initialized initial).context, q.lockManager⟩)).queue = P ∧
    ∃ q1 w1, q.Run fuel initial w = some (q1, w1) ∧ q1.queue = [] ∧
      w1.executed = w.executed ++ (A :: P).map (fun a => (a, none)) := by
  have hnext : (({ q.initialized initial with queue := rest } : Queue).absorb
      (A.body ⟨(q.initialized initial).context, q.lockManager⟩)).queue = P :=
    absorb_queue_of_abort_push _ _ before P hcalls
  obtain ⟨q1, w1, h1, h2, h3, _⟩ :=
    run_head_then_plain q A rest P initial w fuel hq hret hnext hP hfuel
  exact ⟨hnext, q1, w1, h1, h2, h3⟩

/-- C23, on the queue `[A, B]` whose `A` calls `Abort` and then pushes
`[X, Y]`: the run executes `A, X, Y`, and not `B`. -/
theorem abort_then_push_runs_batch_witness :
    (({ (sampleQueue
          [.mk "A" (fun env => ⟨env, [.abort, .push [.noop "X", .noop "Y"]], .returned none⟩),
            .noop "B"] none).initialized none with queue := [.noop "B"] } : Queue).absorb
      ((Action.mk "A"
          (fun env => ⟨env, [.abort, .push [.noop "X", .noop "Y"]], .returned none⟩)).body
        ⟨((sampleQueue
          [.mk "A" (fun env => ⟨env, [.abort, .push [.noop "X", .noop "Y"]], .returned none⟩),
            .noop "B"] none).initialized none).context,
          (sampleQueue
          [.mk "A" (fun env => ⟨env, [.abort, .push [.noop "X", .noop "Y"]], .returned none⟩),
            .noop "B"] none).lockManager⟩)).queue = [.noop "X", .noop "Y"] ∧
    ∃ q1 w1,
      (sampleQueue
        [.mk "A" (fun env => ⟨env, [.abort, .push [.noop "X", .noop "Y"]], .returned none⟩),
          .noop "B"] none).Run 4 none World.init = some (q1, w1) ∧
      q1.queue = [] ∧
      w1.executed = World.init.executed ++
        (Action.mk "A"
            (fun env => ⟨env, [.abort, .push [.noop "X", .noop "Y"]], .returned none⟩) ::
          [.noop "X", .noop "Y"]).map (fun a => (a, none)) :=
  abort_then_push_runs_batch
    (sampleQueue
      [.mk "A" (fun env => ⟨env, [.abort, .push [.noop "X", .noop "Y"]], .returned none⟩),
        .noop "B"] none)
    (.mk "A" (fun env => ⟨env, [.abort, .push [.noop "X", .noop "Y"]], .returned none⟩))
    [.noop "B"] [.noop "X", .noop "Y"] none World.init 4 [] rfl rfl rfl
    (by intro a ha; simp at ha; rcases ha with rfl | rfl <;> exact noop_plain _)
    (by decide)

/-- C25. Scope names are validated after trimming but registered as given.
For every state of the lock manager and every two valid scope names `s` and
`t` that are different strings: `Lock(s)` and `Unlock(s)` do not change
`IsLocked(t)`; `RunWithLock(s, body)` does not change it either, during the
body or after, when the body itself leaves it alone; and when `t` is free,
`Lock(t)` succeeds after `Lock(s)`, with `s` held before and after. -/
theorem other_scope_untouched (m : LockManager) (s t : String)
    (hs : ValidateScope s = none) (ht : ValidateScope t = none) (hne : s ≠ t) :
    (m.Lock s).1.IsLocked t = m.IsLocked t ∧
    (m.Unlock s).IsLocked t = m.IsLocked t ∧
    (∀ (fn : Env → Effect Action (Option GoError)) (ctx : Context),
      (∀ e, (fn e).env.locks.IsLocked t = e.locks.IsLocked t) →
      (LockManager.mk (s :: m.scopes)).IsLocked t = m.IsLocked t ∧
      (LockManager.RunWithLock s fn ⟨ctx, m⟩).env.locks.IsLocked t = m.IsLocked t) ∧
    (m.IsLocked t = false →
      (m.Lock s).1.IsLocked s = true ∧
      ((m.Lock s).1.Lock t).2 = none ∧
      ((m.Lock s).1.Lock t).1.IsLocked s = true ∧
      ((m.Lock s).1.Lock t).1.IsLocked t = true) := by
  have hts : ¬ (t = s) := fun e => hne e.symm
  have hheld : (m.Lock s).1.IsLocked s = true := by
    cases hl : m.IsLocked s with
    | true => rw [lock_of_held m s hs hl]; exact hl
    | false => rw [lock_of_free m s hs hl]; simp [LockManager.IsLocked]
  refine ⟨isLocked_lock_other m s t hne, isLocked_unlock_other m s t hne, ?_, ?_⟩
  · intro fn ctx hbody
    exact ⟨by simp [LockManager.IsLocked, hts],
      isLocked_runWithLock_other s t hne fn ⟨ctx, m⟩ hbody⟩
  · intro hfree
    have hfree2 : (m.Lock s).1.IsLocked t = false := by
      rw [isLocked_lock_other m s t hne]
      exact hfree
    have hlock := lock_of_free (m.Lock s).1 t ht hfree2
    refine ⟨hheld, by rw [hlock], ?_, ?_⟩
    · rw [isLocked_lock_other _ t s (fun e => hne e.symm)]
      exact hheld
    · rw [hlock]
      simp [LockManager.IsLocked]

/-- C25, on a fresh lock manager and the scopes "browser" and " browser",
which differ only in leading white space. -/
theorem other_scope_untouched_witness :
    (NewLockManager.Lock "browser").1.IsLocked " browser" =
      NewLockManager.IsLocked " browser" ∧
    (NewLockManager.Unlock "browser").IsLocked " browser" =
      NewLockManager.IsLocked " browser" ∧
    (∀ (fn : Env → Effect Action (Option GoError)) (ctx : Context),
      (∀ e, (fn e).env.locks.IsLocked " browser" = e.locks.IsLocked " browser") →
      (LockManager.mk ("browser" :: NewLockManager.scopes)).IsLocked " browser" =
        NewLockManager.IsLocked " browser" ∧
      (LockManager.RunWithLock "browser" fn ⟨ctx, NewLockManager⟩).env.locks.IsLocked
        " browser" = NewLockManager.IsLocked " browser") ∧
    (NewLockManager.IsLocked " browser" = false →
      (NewLockManager.Lock "browser").1.IsLocked "browser" = true ∧
      ((NewLockManager.Lock "browser").1.Lock " browser").2 = none ∧
      ((NewLockManager.Lock "browser").1.Lock " browser").1.IsLocked "browser" = true ∧
      ((NewLockManager.Lock "browser").1.Lock " browser").1.IsLocked " browser" = true) :=
  other_scope_untouched NewLockManager "browser" " browser" (by decide) (by decide)
    (by decide)

end QueueRunner
